import Mathlib

/-!
Verification development for the `sft` repository's ability-description
templating and variable-resolution engine
(`internal/services/units_loader.go`, `ability_loader.go`,
`ability_normalize.go`, `units_types.go`).

Strings are modelled as `List Char`.  Go `float64` values are modelled as
exact signed decimals (`Dec`, a sign with a mantissa over a power-of-ten
scale): the program never performs arithmetic on them, it only parses
decimal text into them and formats them back, so a value that enters
through a decimal literal is represented exactly and
`strconv.FormatFloat(v, 'f', -1, 64)` (shortest round-trip form) prints
exactly its decimal digits.  Go's regexp-based replacement functions are
modelled by explicit leftmost scanners that reproduce the leftmost-first
match semantics of each of the concrete patterns appearing in the source.
-/

namespace SFT

/-! ## Character classes -/

/-- ASCII decimal digit, the regexp class `[0-9]` / `\d`. -/
def isAsciiDigit (c : Char) : Bool :=
  decide (48 ≤ c.toNat ∧ c.toNat ≤ 57)

/-- ASCII letter, the regexp class `[A-Za-z]`. -/
def isAsciiLetter (c : Char) : Bool :=
  decide ((65 ≤ c.toNat ∧ c.toNat ≤ 90) ∨ (97 ≤ c.toNat ∧ c.toNat ≤ 122))

/-- ASCII letter or digit. -/
def isAsciiAlnum (c : Char) : Bool :=
  isAsciiLetter c || isAsciiDigit c

/-- The regexp class `\w` = `[0-9A-Za-z_]`, used by the word boundary `\b`. -/
def isWordChar (c : Char) : Bool :=
  isAsciiAlnum c || c = Char.ofNat 95

/-- Character class of the at-token regexp `@([A-Za-z0-9_*]+(?:\.[A-Za-z0-9_*]+)?)@`. -/
def isSegChar (c : Char) : Bool :=
  isAsciiAlnum c || c = Char.ofNat 95 || c = Char.ofNat 42

/-- Character class of the brace-token regexp, `[A-Za-z0-9_.\*]`. -/
def isBraceChar (c : Char) : Bool :=
  isAsciiAlnum c || c = Char.ofNat 95 || c = Char.ofNat 42 || c = Char.ofNat 46

/-- Go regexp's `\s`, which is exactly `[\t\n\f\r ]`. -/
def isReSpace (c : Char) : Bool :=
  c.toNat = 9 || c.toNat = 10 || c.toNat = 12 || c.toNat = 13 || c.toNat = 32

/-- Go's `unicode.IsSpace`, used by `strings.TrimSpace` and `strings.Fields`. -/
def isUniSpace (c : Char) : Bool :=
  let n := c.toNat
  n = 32 || n = 9 || n = 10 || n = 11 || n = 12 || n = 13 ||
  n = 0x85 || n = 0xA0 || n = 0x1680 ||
  (decide (0x2000 ≤ n) && decide (n ≤ 0x200A)) ||
  n = 0x2028 || n = 0x2029 || n = 0x202F || n = 0x205F || n = 0x3000

/-- The opening brace character (written numerically throughout). -/
def lbrace : Char := Char.ofNat 123

/-- The closing brace character. -/
def rbrace : Char := Char.ofNat 125

/-- ASCII uppercase conversion; `unicode.ToUpper` restricted to ASCII
(the scaling codes compared against the icon table are ASCII). -/
def asciiUpper (c : Char) : Char :=
  if 97 ≤ c.toNat ∧ c.toNat ≤ 122 then Char.ofNat (c.toNat - 32) else c

/-- ASCII lowercase conversion, for the case-insensitive `(?i)` keyword match. -/
def asciiLower (c : Char) : Char :=
  if 65 ≤ c.toNat ∧ c.toNat ≤ 90 then Char.ofNat (c.toNat + 32) else c

/-! ## Basic string (List Char) helpers -/

/-- `strings.TrimSpace`: drop leading Unicode whitespace. -/
def trimLeft (s : List Char) : List Char := s.dropWhile isUniSpace

/-- `strings.TrimSpace`: drop trailing Unicode whitespace. -/
def trimRight (s : List Char) : List Char := (s.reverse.dropWhile isUniSpace).reverse

/-- Go `strings.TrimSpace`. -/
def trimSpace (s : List Char) : List Char := trimRight (trimLeft s)

/-- Whether `pat` occurs as a leading run of `s`. -/
def leadsWith : List Char → List Char → Bool
  | [], _ => true
  | _ :: _, [] => false
  | p :: ps, c :: cs => p = c && leadsWith ps cs

/-- Whether `pat` occurs as a contiguous substring of `s`. -/
def containsSub (pat : List Char) : List Char → Bool
  | [] => pat.isEmpty
  | c :: cs => leadsWith pat (c :: cs) || containsSub pat cs

/-- Go `strings.Join`: concatenate with a separator. -/
def joinSep (sep : List Char) : List (List Char) → List Char
  | [] => []
  | [x] => x
  | x :: y :: t => x ++ sep ++ joinSep sep (y :: t)

/-- Digit character for a value `0..9`. -/
def digitChar (d : Nat) : Char := Char.ofNat (48 + d)

/-- Decimal digits of a natural number, most significant first (fueled). -/
def natToDigitsAux : Nat → Nat → List Char → List Char
  | 0, _, acc => acc
  | fuel + 1, n, acc =>
    if n < 10 then digitChar n :: acc
    else natToDigitsAux fuel (n / 10) (digitChar (n % 10) :: acc)

/-- Decimal digits of a natural number. -/
def natToDigits (n : Nat) : List Char := natToDigitsAux (n + 1) n []

/-- Numeric value of a digit string (no sign). -/
def digitsToNat (l : List Char) : Nat :=
  l.foldl (fun n c => n * 10 + (c.toNat - 48)) 0

/-! ## Float formatting and parsing

`strconv.FormatFloat(v, 'f', -1, 64)` prints the shortest decimal string
that round-trips through `float64`.  The model's carrier for `float64` is an
exact signed decimal; every value the program handles enters through a
decimal literal, which the model keeps exact, and is only ever formatted
back, never computed with. -/

/-- The model of a `float64` value: `(-1)^neg * mant / 10^scale`. -/
structure Dec where
  neg : Bool
  mant : Nat
  scale : Nat
deriving DecidableEq, Repr

/-- The decimal for a plain natural number. -/
def Dec.ofNat (n : Nat) : Dec := { neg := false, mant := n, scale := 0 }

/-- Smallest number of fractional digits with which `d` has an exact decimal
representation (at most its own scale). -/
def decFracDigits (d : Dec) : Nat :=
  (((List.range (d.scale + 1)).find? fun k =>
    (d.mant * 10 ^ k) % 10 ^ d.scale = 0).getD d.scale)

/-- Model of `strconv.FormatFloat(v, 'f', -1, 64)`: minimal plain decimal. -/
def formatFloat (d : Dec) : List Char :=
  let k := decFracDigits d
  let m : Nat := d.mant * 10 ^ k / 10 ^ d.scale
  let ds := natToDigits m
  let ds := if ds.length < k + 1 then List.replicate (k + 1 - ds.length) (digitChar 0) ++ ds else ds
  let body := if k = 0 then ds
    else ds.take (ds.length - k) ++ Char.ofNat 46 :: ds.drop (ds.length - k)
  if d.neg then Char.ofNat 45 :: body else body

/-- Model of `strconv.ParseFloat(s, 64)` restricted to finite plain decimal
forms `[+-]?digits[.digits]?([eE][+-]?digits)?`.  The model keeps the exact
decimal value (Go rounds it to the nearest binary64); the special inputs Go
additionally accepts (`Inf`, `NaN`, hexadecimal floats, digit-group
underscores) have no decimal meaning and are mapped to failure. -/
def parseFloat (s : List Char) : Option Dec :=
  let (neg, s1) :=
    match s with
    | c :: t =>
      if c = Char.ofNat 45 then (true, t)
      else if c = Char.ofNat 43 then (false, t)
      else (false, s)
    | [] => (false, s)
  let intPart := s1.takeWhile isAsciiDigit
  let s2 := s1.dropWhile isAsciiDigit
  let (fracPart, s3) :=
    match s2 with
    | c :: t =>
      if c = Char.ofNat 46 then (t.takeWhile isAsciiDigit, t.dropWhile isAsciiDigit)
      else (([] : List Char), s2)
    | [] => (([] : List Char), s2)
  if intPart = [] ∧ fracPart = [] then none
  else
    let n := digitsToNat (intPart ++ fracPart)
    let finish : Int → Option Dec := fun e =>
      let t : Int := (fracPart.length : Int) - e
      if t ≤ 0 then some { neg := neg, mant := n * 10 ^ (-t).toNat, scale := 0 }
      else some { neg := neg, mant := n, scale := t.toNat }
    match s3 with
    | c :: t =>
      if c = Char.ofNat 101 ∨ c = Char.ofNat 69 then
        let (eneg, t2) :=
          match t with
          | d :: t2 =>
            if d = Char.ofNat 45 then (true, t2)
            else if d = Char.ofNat 43 then (false, t2)
            else (false, t)
          | [] => (false, t)
        let eds := t2.takeWhile isAsciiDigit
        if eds = [] ∨ t2.dropWhile isAsciiDigit ≠ [] then none
        else finish (if eneg then -(digitsToNat eds : Int) else (digitsToNat eds : Int))
      else none
    | [] => finish 0

/-! ## Generic leftmost-scan replacement

`regexp.ReplaceAllStringFunc` (and `strings.ReplaceAll`) repeatedly finds the
leftmost match from the current position, appends its replacement and resumes
scanning right after the match, never rescanning replacement text.  That loop
is modelled once, fueled by the input length (each matcher consumes at least
one character).  A scanner may carry a state `σ` describing the context to
the left of the scan position (used for `\b` word boundaries); `u` updates it
when a character is passed over unmatched. -/

def scanReplaceSt {σ : Type} (m : σ → List Char → Option (List Char × σ × List Char))
    (u : σ → Char → σ) : Nat → σ → List Char → List Char
  | 0, _, s => s
  | fuel + 1, st, s =>
    match s with
    | [] => []
    | c :: cs =>
      match m st (c :: cs) with
      | some (r, st2, rest) => r ++ scanReplaceSt m u fuel st2 rest
      | none => c :: scanReplaceSt m u fuel (u st c) cs

/-- The replacement pass over a whole string (enough fuel for every position). -/
def scanCore {σ : Type} (m : σ → List Char → Option (List Char × σ × List Char))
    (u : σ → Char → σ) (st : σ) (s : List Char) : List Char :=
  scanReplaceSt m u s.length st s

/-! ## Data model (`internal/models`) -/

/-- `models.AbilityVariable`: a single named, leveled parameter of an ability. -/
structure AbilityVariable where
  name : List Char
  type : List Char
  values : List Dec
  displayValues : List (List Char)
  scaling : List Char
  scalings : List (List Char)
  cssClass : List Char
deriving DecidableEq, Repr

/-- `models.Ability`.  The Go `map[string]AbilityVariable` is modelled as its
entry list with unique keys; the formatter only ever looks entries up by key
and tests emptiness, so iteration order is irrelevant.  The `icon` field,
which neither the formatter nor the adapter under verification touches, is
omitted. -/
structure Ability where
  name : List Char
  description : List Char
  descriptionRaw : List Char
  vars : List (List Char × AbilityVariable)
deriving DecidableEq, Repr

/-- Go map lookup `m[k]` on the entry-list model. -/
def lookupBy {α : Type} : List (List Char × α) → List Char → Option α
  | [], _ => none
  | (k, v) :: t, n => if n = k then some v else lookupBy t n

/-! ## Formatter helpers (`units_loader.go`) -/

/-- The dot character separating a token name from its field. -/
def isDotChar (c : Char) : Bool := c = Char.ofNat 46

/-- Expansion of one character under Go's `html.EscapeString`
(which replaces exactly `&`, `'`, `<`, `>`, `"`). -/
def escapeChar (c : Char) : List Char :=
  if c = Char.ofNat 38 then "&amp;".toList
  else if c = Char.ofNat 39 then "&#39;".toList
  else if c = Char.ofNat 60 then "&lt;".toList
  else if c = Char.ofNat 62 then "&gt;".toList
  else if c = Char.ofNat 34 then "&#34;".toList
  else [c]

/-- Go `html.EscapeString` (single pass, all five replacements at once). -/
def escapeString (s : List Char) : List Char := (s.map escapeChar).flatten

/-- `splitToken`: `Name` or `Name.field`, split at the first dot. -/
def splitToken (token : List Char) : List Char × List Char :=
  match token.dropWhile (fun c => !(isDotChar c)) with
  | [] => (token, [])
  | _ :: rest => (token.takeWhile (fun c => !(isDotChar c)), rest)

/-- `joinAbilityValues`: slash-join the numeric values in
shortest round-trip decimal form. -/
def joinAbilityValues (values : List Dec) : List Char :=
  if values = [] then []
  else joinSep ("/".toList) (values.map formatFloat)

/-- `joinDisplayValues`: trim each display value, drop empties, slash-join. -/
def joinDisplayValues (values : List (List Char)) : List Char :=
  if values = [] then []
  else
    let parts := (values.map trimSpace).filter (fun v => v ≠ [])
    if parts = [] then [] else joinSep ("/".toList) parts

/-- `normalizeScalingKey`: keep letters and digits, uppercased.
(The source uses `unicode.IsLetter`/`IsDigit`/`ToUpper`; the model restricts
them to ASCII, which covers every code in the icon table.) -/
def normalizeScalingKey (s : List Char) : List Char :=
  s.filterMap fun c => if isAsciiAlnum c then some (asciiUpper c) else none

/-- `scalingIconMap`: canonical scaling codes to CSS class lists. -/
def scalingIconMap : List (List Char × List Char) :=
  [("AP", "ability-token ability-icon ability-icon-ap"),
   ("AD", "ability-token ability-icon ability-icon-ad"),
   ("AS", "ability-token ability-icon ability-icon-as"),
   ("ARMOR", "ability-token ability-icon ability-icon-armor"),
   ("MR", "ability-token ability-icon ability-icon-mr"),
   ("CC", "ability-token ability-icon ability-icon-crit-chance"),
   ("CD", "ability-token ability-icon ability-icon-crit-damage"),
   ("HP", "ability-token ability-icon ability-icon-health"),
   ("MANA", "ability-token ability-icon ability-icon-mana"),
   ("RANGE", "ability-token ability-icon ability-icon-range"),
   ("SOULS", "ability-token ability-icon ability-icon-souls")
  ].map fun p => (p.1.toList, p.2.toList)

/-- `scalingIconClass`: normalized key looked up in the fixed table. -/
def scalingIconClass (raw : List Char) : List Char :=
  let key := normalizeScalingKey raw
  if key = [] then []
  else
    match lookupBy scalingIconMap key with
    | some cls => cls
    | none => []

/-- `scalingParts`: prefer the `Scalings` list, else the single `Scaling`. -/
def scalingParts (v : AbilityVariable) : List (List Char) :=
  if v.scalings ≠ [] then v.scalings
  else if trimSpace v.scaling ≠ [] then [v.scaling]
  else []

/-- The `<span class="ability-scaling-plus">+</span>` separator. -/
def plusSpan : List Char := "<span class=\"ability-scaling-plus\">+</span>".toList

/-- The icon markup emitted for a recognized scaling part. -/
def iconBlock (cls part : List Char) : List Char :=
  "<span class=\"ability-scaling-block\"><span class=\"".toList ++ cls ++
  "\" aria-label=\"".toList ++ escapeString part ++
  "\"><span class=\"ability-icon-text\">".toList ++ escapeString part ++
  "</span></span></span>".toList

/-- The plain-text markup emitted for an unrecognized scaling part. -/
def plainTokenSpan (part : List Char) : List Char :=
  "<span class=\"ability-token\">".toList ++ escapeString part ++ "</span>".toList

/-- One loop iteration of `renderScalingIcons` per part, carrying the Go
range index (the `+` separator is keyed on the index, not on how many parts
were actually rendered). -/
def renderScalingChunksAux : Nat → List (List Char) → List (List Char)
  | _, [] => []
  | i, p :: ps =>
    let part := trimSpace p
    (if part = [] then []
     else (if 0 < i then [plusSpan] else []) ++
       [if scalingIconClass part ≠ [] then iconBlock (scalingIconClass part) part
        else plainTokenSpan part]) ++ renderScalingChunksAux (i + 1) ps

/-- `renderScalingIcons`. -/
def renderScalingIcons (v : AbilityVariable) : List Char :=
  let parts := scalingParts v
  if parts = [] then []
  else
    let rendered := renderScalingChunksAux 0 parts
    if rendered = [] then [] else rendered.flatten

/-- The shared tail of `selectAbilityContent`'s fallback chain. -/
def selectFallback (v : AbilityVariable) (field : List Char) : List Char :=
  if joinDisplayValues v.displayValues ≠ [] then joinDisplayValues v.displayValues
  else if joinAbilityValues v.values ≠ [] then joinAbilityValues v.values
  else if v.type ≠ [] then v.type
  else if v.name ≠ [] then v.name
  else field

/-- `selectAbilityContent`: switch on the requested field with early returns,
then the shared fallback chain. -/
def selectAbilityContent (v : AbilityVariable) (field : List Char) : List Char :=
  if field = "values".toList ∨ field = [] then
    if joinDisplayValues v.displayValues ≠ [] then joinDisplayValues v.displayValues
    else if joinAbilityValues v.values ≠ [] then joinAbilityValues v.values
    else selectFallback v field
  else if field = "scaling".toList then
    if v.scalings ≠ [] then joinSep (" + ".toList) v.scalings
    else if v.scaling ≠ [] then v.scaling
    else selectFallback v field
  else if field = "type".toList then
    if v.type ≠ [] then v.type
    else selectFallback v field
  else selectFallback v field

/-- `renderAbilityValue`. -/
def renderAbilityValue (v : AbilityVariable) (field : List Char) : List Char :=
  let content := selectAbilityContent v field
  if content = [] then []
  else if field = "scaling".toList ∧ renderScalingIcons v ≠ [] then renderScalingIcons v
  else
    let classes :=
      "ability-token".toList ::
        (if trimSpace v.cssClass ≠ [] then [trimSpace v.cssClass] else [])
    "<span class=\"".toList ++ joinSep (" ".toList) classes ++ "\">".toList ++
      escapeString content ++ "</span>".toList

/-- The body of the `ReplaceAllStringFunc` callback in `replaceAbilityTokens`:
look the token's name up; on a miss, or when the rendered value is empty,
keep the whole matched text. -/
def substToken (vars : List (List Char × AbilityVariable)) (matchText token : List Char) :
    List Char :=
  let (name, field) := splitToken token
  match lookupBy vars name with
  | none => matchText
  | some v =>
    let rendered := renderAbilityValue v field
    if rendered = [] then matchText else rendered

/-! ## Token matchers

`abilityAtTokenRe = @([A-Za-z0-9_*]+(?:\.[A-Za-z0-9_*]+)?)@`.  At a position
holding `@`, the greedy segment runs are forced (the segment class excludes
both `.` and `@`), so the leftmost-first match is computed directly. -/

/-- Attempt the at-token regexp just after an opening `@`; returns the
captured group and the remainder after the closing `@`. -/
def parseAtAfter (cs : List Char) : Option (List Char × List Char) :=
  let r1 := cs.takeWhile isSegChar
  if r1 = [] then none
  else
    match cs.dropWhile isSegChar with
    | c :: rest =>
      if c = Char.ofNat 64 then some (r1, rest)
      else if isDotChar c then
        let r2 := rest.takeWhile isSegChar
        if r2 = [] then none
        else
          match rest.dropWhile isSegChar with
          | c2 :: rest2 => if c2 = Char.ofNat 64 then
              some (r1 ++ Char.ofNat 46 :: r2, rest2) else none
          | [] => none
      else none
    | [] => none

/-- Matcher for the at-token pass of `replaceAbilityTokens`. -/
def atMatcher (vars : List (List Char × AbilityVariable)) :
    Unit → List Char → Option (List Char × Unit × List Char) := fun _ s =>
  match s with
  | c :: cs =>
    if c = Char.ofNat 64 then
      match parseAtAfter cs with
      | some (tok, rest) =>
        some (substToken vars (Char.ofNat 64 :: tok ++ [Char.ofNat 64]) tok, (), rest)
      | none => none
    else none
  | [] => none

/-- Attempt the brace-token regexp `{([A-Za-z0-9_.\*]+)}` just after an
opening brace. -/
def parseBraceAfter (cs : List Char) : Option (List Char × List Char) :=
  let r := cs.takeWhile isBraceChar
  if r = [] then none
  else
    match cs.dropWhile isBraceChar with
    | c :: rest => if c = rbrace then some (r, rest) else none
    | [] => none

/-- Matcher for the brace-token pass of `replaceAbilityTokens`. -/
def braceMatcher (vars : List (List Char × AbilityVariable)) :
    Unit → List Char → Option (List Char × Unit × List Char) := fun _ s =>
  match s with
  | c :: cs =>
    if c = lbrace then
      match parseBraceAfter cs with
      | some (tok, rest) => some (substToken vars (lbrace :: tok ++ [rbrace]) tok, (), rest)
      | none => none
    else none
  | [] => none

/-- State update for stateless scanners. -/
def noSt : Unit → Char → Unit := fun _ _ => ()

/-- The two token grammars taken by `replaceAbilityTokens` (the Go function
receives the corresponding compiled regexp). -/
inductive TokenRe | atRe | braceRe
deriving DecidableEq, Repr

/-- `replaceAbilityTokens(desc, vars, re)`. -/
def replaceAbilityTokens (desc : List Char) (vars : List (List Char × AbilityVariable))
    (re : TokenRe) : List Char :=
  if vars = [] then desc
  else
    match re with
    | .atRe => scanCore (atMatcher vars) noSt () desc
    | .braceRe => scanCore (braceMatcher vars) noSt () desc

/-! ## Parenthesized-group pass

`abilityParenTokenRe = \(\s*([^()]*@[^@()]+@[^()]*)\s*\)`: a parenthesis pair
with no nested parens whose contents hold two `@` with a nonempty `@`-free
run between them.  The closing paren is necessarily the first paren after the
opening one, and the captured group differs from the raw inner text only by
surrounding whitespace, which the callback trims away anyway. -/

/-- Not a parenthesis (the inner classes of the paren regexp). -/
def notParen (c : Char) : Bool := !(c = Char.ofNat 40) && !(c = Char.ofNat 41)

/-- Whether a (paren-free) inner text matches `[^()]*@[^@()]+@[^()]*`:
the state is `none` before any `@` was seen, `some g` after an `@` where `g`
records whether a non-`@` character followed it. -/
def hasAtMarkerAux : Option Bool → List Char → Bool
  | _, [] => false
  | none, c :: cs =>
    if c = Char.ofNat 64 then hasAtMarkerAux (some false) cs
    else hasAtMarkerAux none cs
  | some g, c :: cs =>
    if c = Char.ofNat 64 then (if g then true else hasAtMarkerAux (some false) cs)
    else hasAtMarkerAux (some true) cs

/-- Whether the paren regexp's inner pattern matches this text. -/
def hasAtMarker (l : List Char) : Bool := hasAtMarkerAux none l

/-- Render a parenthetical's trimmed inner text through the at-token and
brace-token rules (the callback body of `replaceParenthesizedTokens`). -/
def renderParenInner (vars : List (List Char × AbilityVariable)) (inner : List Char) :
    List Char :=
  replaceAbilityTokens (replaceAbilityTokens inner vars TokenRe.atRe) vars TokenRe.braceRe

/-- The `ability-scaling-group` wrapper emitted around a resolved parenthetical. -/
def parenWrap (rendered : List Char) : List Char :=
  "<span class=\"ability-scaling-group\"><span class=\"ability-scaling-paren\">(</span>".toList ++
  rendered ++ "<span class=\"ability-scaling-paren\">)</span></span>".toList

/-- The callback of `replaceParenthesizedTokens`: keep the match when nothing
resolved (or rendering came back empty), else wrap. -/
def parenRepl (vars : List (List Char × AbilityVariable)) (matchText innerRaw : List Char) :
    List Char :=
  let inner := trimSpace innerRaw
  let rendered := renderParenInner vars inner
  if rendered = [] ∨ rendered = inner then matchText
  else parenWrap rendered

/-- Matcher for the parenthesized-group pass. -/
def parenMatcher (vars : List (List Char × AbilityVariable)) :
    Unit → List Char → Option (List Char × Unit × List Char) := fun _ s =>
  match s with
  | c :: cs =>
    if c = Char.ofNat 40 then
      let inner := cs.takeWhile notParen
      match cs.dropWhile notParen with
      | d :: rest =>
        if d = Char.ofNat 41 ∧ hasAtMarker inner then
          some (parenRepl vars (Char.ofNat 40 :: inner ++ [Char.ofNat 41]) inner, (), rest)
        else none
      | [] => none
    else none
  | [] => none

/-- `replaceParenthesizedTokens(desc, vars)`. -/
def replaceParenthesizedTokens (desc : List Char)
    (vars : List (List Char × AbilityVariable)) : List Char :=
  if vars = [] then desc
  else scanCore (parenMatcher vars) noSt () desc

/-! ## Literal substring replacement (`strings.ReplaceAll`) -/

/-- Matcher replacing a literal nonempty pattern. -/
def literalMatcher (pat repl : List Char) :
    Unit → List Char → Option (List Char × Unit × List Char) := fun _ s =>
  if pat ≠ [] ∧ leadsWith pat s then some (repl, (), s.drop pat.length) else none

/-- Go `strings.ReplaceAll` for a nonempty pattern. -/
def replaceAllLit (s pat repl : List Char) : List Char :=
  scanCore (literalMatcher pat repl) noSt () s

/-- `FormatAbilityDescription`: trim and choose the description, HTML-escape
it, run the parenthesized-group, at-token and brace-token passes, convert
newlines and trim. -/
def formatAbilityDescription (ability : Ability) : List Char :=
  let desc0 := trimSpace ability.description
  let desc := if desc0 = [] then trimSpace ability.descriptionRaw else desc0
  if desc = [] then []
  else
    let escaped := escapeString desc
    let withParen := replaceParenthesizedTokens escaped ability.vars
    let withAtTokens := replaceAbilityTokens withParen ability.vars TokenRe.atRe
    let withBraceTokens := replaceAbilityTokens withAtTokens ability.vars TokenRe.braceRe
    let withLineBreaks := replaceAllLit withBraceTokens [Char.ofNat 10] ("<br />".toList)
    trimSpace withLineBreaks

/-! ## Description normalizer (`ability_normalize.go`)

Each regexp step of `normalizeDescription` becomes one scanner matcher. -/

/-- Split at the first occurrence of a nonempty pattern: text before it and
text after it. -/
def splitFirst (pat : List Char) : List Char → Option (List Char × List Char)
  | [] => none
  | c :: cs =>
    if leadsWith pat (c :: cs) then some ([], (c :: cs).drop pat.length)
    else
      match splitFirst pat cs with
      | some (a, b) => some (c :: a, b)
      | none => none

/-- Not the `@` character. -/
def notAt (c : Char) : Bool := !(c = Char.ofNat 64)

/-- Not the `>` character. -/
def notGt (c : Char) : Bool := !(c = Char.ofNat 62)

/-- Not the `%` character. -/
def notPct (c : Char) : Bool := !(c = Char.ofNat 37)

/-- Neither brace character. -/
def notBrace (c : Char) : Bool := !(c = lbrace) && !(c = rbrace)

/-- Step 2: `(?s)<TFTTrackerLabel>.*?</TFTTrackerLabel>` removed; the
non-greedy body ends at the first closing tag. -/
def trackerMatcher : Unit → List Char → Option (List Char × Unit × List Char) := fun _ s =>
  match s with
  | c :: cs =>
    if c = Char.ofNat 60 ∧ leadsWith ("TFTTrackerLabel>".toList) cs then
      match splitFirst ("</TFTTrackerLabel>".toList) (cs.drop 16) with
      | some (_, rest) => some ([], (), rest)
      | none => none
    else none
  | [] => none

/-- Step 3: `@TFTUnitProperty\.[^@]+@` removed. -/
def unitPropMatcher : Unit → List Char → Option (List Char × Unit × List Char) := fun _ s =>
  match s with
  | c :: cs =>
    if c = Char.ofNat 64 ∧ leadsWith ("TFTUnitProperty.".toList) cs then
      let body := cs.drop 16
      if body.takeWhile notAt = [] then none
      else
        match body.dropWhile notAt with
        | d :: rest => if d = Char.ofNat 64 then some ([], (), rest) else none
        | [] => none
    else none
  | [] => none

/-- Step 4: `</?[^>]+?>` removed; the non-greedy body ends at the first `>`,
and `/?` folds into the body class. -/
def tagsMatcher : Unit → List Char → Option (List Char × Unit × List Char) := fun _ s =>
  match s with
  | c :: cs =>
    if c = Char.ofNat 60 then
      if cs.takeWhile notGt = [] then none
      else
        match cs.dropWhile notGt with
        | d :: rest => if d = Char.ofNat 62 then some ([], (), rest) else none
        | [] => none
    else none
  | [] => none

/-- Step 6: `%i:[^%]+%` icon-scale tokens removed. -/
def scaleMatcher : Unit → List Char → Option (List Char × Unit × List Char) := fun _ s =>
  match s with
  | c :: cs =>
    if c = Char.ofNat 37 ∧ leadsWith ("i:".toList) cs then
      let body := cs.drop 2
      if body.takeWhile notPct = [] then none
      else
        match body.dropWhile notPct with
        | d :: rest => if d = Char.ofNat 37 then some ([], (), rest) else none
        | [] => none
    else none
  | [] => none

/-- Left-context state for `\b`: the character just before the scan position
in the text being scanned (`none` at the start of the string). -/
def updPrev : Option Char → Char → Option Char := fun _ c => some c

/-- `\b` holds at the start of the remainder `l` when the character before it
is a word character: true when `l` is exhausted or starts with a non-word
character. -/
def boundaryOk (l : List Char) : Bool :=
  match l with
  | [] => true
  | c :: _ => !(isWordChar c)

/-- Whether the position's left context is a non-word character (or the
string start), as the leading `\b` before a word character requires. -/
def prevNonWord : Option Char → Bool
  | none => true
  | some p => !(isWordChar p)

/-- Case-insensitive (ASCII) literal prefix test; `pat` is lowercase. -/
def ciLeads : List Char → List Char → Bool
  | [], _ => true
  | _ :: _, [] => false
  | p :: ps, c :: cs => p = asciiLower c && ciLeads ps cs

/-- Step 7a: `(?i)\bkeyword\s*\d*\b` removed.  With `\s*` and `\d*` greedy
and backtracking for the trailing `\b`, the matched extent is: the keyword
plus spaces plus digits when a boundary follows the digits; just the keyword
plus spaces when digits exist but a word character follows them (boundary
between space and digit) or when no digits exist and a word character
follows the spaces; just the keyword otherwise — failing only when the
keyword is directly followed by a digit-then-word run or by a word character
with no spaces between.  The state carries the last character of whatever
was consumed, for the next position's `\b`. -/
def kwDigitsMatcher : Option Char → List Char → Option (List Char × Option Char × List Char) :=
  fun st s =>
  if prevNonWord st ∧ ciLeads ("keyword".toList) s then
    let after := s.drop 7
    let sp := after.takeWhile isReSpace
    let afterSp := after.dropWhile isReSpace
    let dg := afterSp.takeWhile isAsciiDigit
    let afterDg := afterSp.dropWhile isAsciiDigit
    let kwLast := (s.take 7).getLastD (Char.ofNat 100)
    if dg ≠ [] then
      if boundaryOk afterDg then some ([], some (dg.getLastD (Char.ofNat 48)), afterDg)
      else if sp ≠ [] then some ([], some (sp.getLastD (Char.ofNat 32)), afterSp)
      else none
    else
      if sp ≠ [] then
        if boundaryOk afterSp then some ([], some kwLast, after)
        else some ([], some (sp.getLastD (Char.ofNat 32)), afterSp)
      else if boundaryOk after then some ([], some kwLast, after)
      else none
  else none

/-- Step 7b: `(?i)\bkeyword\b` removed. -/
def kwMatcher : Option Char → List Char → Option (List Char × Option Char × List Char) :=
  fun st s =>
  if prevNonWord st ∧ ciLeads ("keyword".toList) s ∧ boundaryOk (s.drop 7) then
    some ([], some ((s.take 7).getLastD (Char.ofNat 100)), s.drop 7)
  else none

/-- Step 8: `{{[^{}]+}}` double-brace tokens removed. -/
def dblBraceMatcher : Unit → List Char → Option (List Char × Unit × List Char) := fun _ s =>
  match s with
  | c :: cs =>
    if c = lbrace then
      match cs with
      | d :: cs2 =>
        if d = lbrace then
          if cs2.takeWhile notBrace = [] then none
          else
            match cs2.dropWhile notBrace with
            | e :: f :: rest =>
              if e = rbrace ∧ f = rbrace then some ([], (), rest) else none
            | _ => none
        else none
      | [] => none
    else none
  | [] => none

/-- The literal `*100` of the legacy-token regexp (star, one, zero, zero). -/
def star100 : List Char := [Char.ofNat 42, Char.ofNat 49, Char.ofNat 48, Char.ofNat 48]

/-- The literal `*100@`. -/
def star100At : List Char := star100 ++ [Char.ofNat 64]

/-- Step 9: `@([A-Za-z0-9_]+(?:\*100)?)@` rewritten to `{$1}`; the word run
is forced maximal (the class excludes `*` and `@`), then the literal `*100`
is taken exactly when the closing `@` follows it. -/
def legacyVarMatcher : Unit → List Char → Option (List Char × Unit × List Char) := fun _ s =>
  match s with
  | c :: cs =>
    if c = Char.ofNat 64 then
      let r1 := cs.takeWhile isWordChar
      if r1 = [] then none
      else
        let rest := cs.dropWhile isWordChar
        if leadsWith star100At rest then
          some (lbrace :: r1 ++ star100 ++ [rbrace], (), rest.drop 5)
        else
          match rest with
          | d :: rest2 =>
            if d = Char.ofNat 64 then some (lbrace :: r1 ++ [rbrace], (), rest2) else none
          | [] => none
    else none
  | [] => none

/-- The legacy-token conversion pass (step 9) as a function of its own. -/
def convertLegacyTokens (s : List Char) : List Char :=
  scanCore legacyVarMatcher noSt () s

/-- Go `strings.Fields`: maximal runs of non-whitespace characters. -/
def fieldsAux : List Char → List Char → List (List Char)
  | [], acc => if acc = [] then [] else [acc.reverse]
  | c :: cs, acc =>
    if isUniSpace c then
      if acc = [] then fieldsAux cs [] else acc.reverse :: fieldsAux cs []
    else fieldsAux cs (c :: acc)

/-- Go `strings.Fields`. -/
def fields (s : List Char) : List (List Char) := fieldsAux s []

/-- No two adjacent whitespace characters anywhere in the string. -/
def noTwoSpaces : List Char → Bool
  | c :: d :: t => !(isUniSpace c && isUniSpace d) && noTwoSpaces (d :: t)
  | _ => true

/-- `normalizeDescription`: the ordered cleanup pipeline of
`ability_normalize.go`. -/
def normalizeDescription (desc : List Char) : List Char :=
  let s := replaceAllLit desc ("&nbsp;".toList) (" ".toList)
  let s := scanCore trackerMatcher noSt () s
  let s := scanCore unitPropMatcher noSt () s
  let s := scanCore tagsMatcher noSt () s
  let s := replaceAllLit s [Char.ofNat 92, Char.ofNat 34] []
  let s := replaceAllLit s [Char.ofNat 34, Char.ofNat 62] []
  let s := scanCore scaleMatcher noSt () s
  let s := scanCore kwDigitsMatcher updPrev none s
  let s := scanCore kwMatcher updPrev none s
  let s := scanCore dblBraceMatcher noSt () s
  let s := convertLegacyTokens s
  let s := replaceAllLit s (" ()".toList) []
  joinSep [Char.ofNat 32] (fields s)

/-! ## Upstream decode model (`units_types.go`)

JSON scalars and arrays reaching `valueList`/`scalingList` decoding are
modelled after `encoding/json` has tokenized them; a JSON number carries its
exact decimal value. -/

/-- A decoded JSON value as far as the value/scaling decoders inspect it. -/
inductive JsonVal
  | num (q : Dec)
  | str (s : List Char)
  | arr (elems : List JsonVal)
  | other
deriving Repr

/-- `valueList`: dual numeric/display representation. -/
structure ValueList where
  nums : List Dec
  display : List (List Char)
deriving DecidableEq, Repr

/-- Go `strings.TrimSuffix(s, "%")`: drop one trailing percent sign. -/
def trimSuffixPct (t : List Char) : List Char :=
  if t.reverse.headD (Char.ofNat 0) = Char.ofNat 37 then t.take (t.length - 1) else t

/-- `parseFloatString`: trim whitespace, strip one trailing `%`, float-parse. -/
def parseFloatString (s : List Char) : Option Dec :=
  parseFloat (trimSuffixPct (trimSpace s))

/-- `valueList.parseSingle`: a single JSON number or string. -/
def parseSingle : JsonVal → Option ValueList
  | .num q => some { nums := [q], display := [formatFloat q] }
  | .str s =>
    let t := trimSpace s
    some { nums := (match parseFloatString t with | some q => [q] | none => []),
           display := [t] }
  | _ => none

/-- One loop iteration of `valueList.parseArray` (non-number, non-string
elements are silently skipped). -/
def parseArrayStep (acc : List Dec × List (List Char)) : JsonVal → List Dec × List (List Char)
  | .num q => (acc.1 ++ [q], acc.2 ++ [formatFloat q])
  | .str s =>
    let t := trimSpace s
    (match parseFloatString t with | some q => acc.1 ++ [q] | none => acc.1, acc.2 ++ [t])
  | _ => acc

/-- `valueList.parseArray`: fails (signalling a decode error upstream) when
no display entry was produced. -/
def parseArray : JsonVal → Option ValueList
  | .arr elems =>
    let (nums, display) := elems.foldl parseArrayStep ([], [])
    if display = [] then none else some { nums := nums, display := display }
  | _ => none

/-- `valueList.UnmarshalJSON` on a non-null value: `parseSingle`, then
`parseArray`, else a decode error. -/
def valueListDecode (j : JsonVal) : Option ValueList :=
  match parseSingle j with
  | some v => some v
  | none => parseArray j

/-- `valueList.Numbers()`: an independent copy, `nil` when empty. -/
def ValueList.numbers (v : ValueList) : List Dec :=
  if v.nums = [] then [] else v.nums

/-- `valueList.Display()`: an independent copy, `nil` when empty. -/
def ValueList.display2 (v : ValueList) : List (List Char) :=
  if v.display = [] then [] else v.display

/-- `scalingList.UnmarshalJSON` on a non-null value: a single string is
trimmed (empty dropped); an array of strings is element-trimmed with empties
dropped; any other shape is a decode error. -/
def scalingListDecode : JsonVal → Option (List (List Char))
  | .str s => some (if trimSpace s = [] then [] else [trimSpace s])
  | .arr elems =>
    match (elems.mapM fun e =>
        match e with | JsonVal.str s => some s | _ => (none : Option (List Char))) with
    | some l => some ((l.map trimSpace).filter fun t => t ≠ [])
    | none => none
  | _ => none

/-- `scalingList.Primary()`. -/
def scalingPrimary (s : List (List Char)) : List Char := s.headD []

/-- `scalingList.All()` (an independent copy; `nil` when empty). -/
def scalingAll (s : List (List Char)) : List (List Char) :=
  if s = [] then [] else s

/-! ## Raw ability shapes and the adapter (`ability_loader.go`) -/

/-- `setVariable` (legacy list form). -/
structure SetVariable where
  name : List Char
  value : ValueList
deriving DecidableEq, Repr

/-- `detailedAbilityVariable` (mapping form), with `values`/`scaling`
already decoded. -/
structure DetailedVar where
  values : ValueList
  type : List Char
  scaling : List (List Char)
  cssClass : List Char
deriving DecidableEq, Repr

/-- `rawAbilityVariables`: either the mapping form (modelled as its
unique-keyed entry list) or the legacy list form. -/
structure RawAbilityVariables where
  map : List (List Char × DetailedVar)
  list : List SetVariable
deriving DecidableEq, Repr

/-- `setAbility`. -/
structure SetAbility where
  name : List Char
  description : List Char
  descriptionRaw : List Char
  rawVars : RawAbilityVariables
deriving DecidableEq, Repr

/-- Go map insertion `m[k] = v` on the entry-list model (overwrite wins). -/
def mapSet (m : List (List Char × AbilityVariable)) (k : List Char) (v : AbilityVariable) :
    List (List Char × AbilityVariable) :=
  if (lookupBy m k).isSome then m.map (fun p => if p.1 = k then (k, v) else p)
  else m ++ [(k, v)]

/-- The `AbilityVariable` built from one mapping-form entry (key `name`
untrimmed in the map, trimmed inside the record). -/
def adaptDetailedVar (name : List Char) (v : DetailedVar) : AbilityVariable :=
  { name := trimSpace name,
    type := trimSpace v.type,
    values := v.values.numbers,
    displayValues := v.values.display2,
    scaling := trimSpace (scalingPrimary v.scaling),
    scalings := scalingAll v.scaling,
    cssClass := trimSpace v.cssClass }

/-- `adaptAbility`: description selection (running the normalizer only when
no mapping-form variables are present) and variable population. -/
def adaptAbility (a : SetAbility) : Ability :=
  let rawDesc0 := trimSpace a.description
  let rawDesc :=
    if rawDesc0 = [] ∧ a.descriptionRaw ≠ [] then trimSpace a.descriptionRaw else rawDesc0
  let desc :=
    if a.rawVars.map = [] then
      let clean := normalizeDescription a.description
      let d1 := if clean ≠ [] then clean else rawDesc
      if d1 = [] ∧ a.description ≠ [] then trimSpace a.description else d1
    else rawDesc
  let vars :=
    if a.rawVars.map ≠ [] then
      a.rawVars.map.map fun p => (p.1, adaptDetailedVar p.1 p.2)
    else if a.rawVars.list ≠ [] then
      a.rawVars.list.foldl
        (fun m v => mapSet m v.name
          { name := trimSpace v.name, type := [], values := v.value.numbers,
            displayValues := v.value.display2, scaling := [], scalings := [],
            cssClass := [] })
        []
    else []
  { name := trimSpace a.name,
    description := desc,
    descriptionRaw := trimSpace a.descriptionRaw,
    vars := vars }

/-- The markup chunk a part contributes (icon when the code is known,
plain token span otherwise). -/
def chunkFor (part : List Char) : List Char :=
  if scalingIconClass part ≠ [] then iconBlock (scalingIconClass part) part
  else plainTokenSpan part

/-! ## Concrete fixtures for the claims -/

/-- Decoded `values: [100,150,200]` of the end-to-end scenario. -/
def ahriValueList : ValueList :=
  { nums := [Dec.ofNat 100, Dec.ofNat 150, Dec.ofNat 200],
    display := ["100".toList, "150".toList, "200".toList] }

/-- Decoded mapping-form variable `MagicDamage` of the end-to-end scenario. -/
def ahriDetailedVar : DetailedVar :=
  { values := ahriValueList, type := [], scaling := ["AP".toList], cssClass := [] }

/-- The raw `setAbility` of the end-to-end scenario raw champion record. -/
def ahriRawAbility : SetAbility :=
  { name := [],
    description := "Deals @MagicDamage@ magic damage (@Scaling@)".toList,
    descriptionRaw := [],
    rawVars := { map := [("MagicDamage".toList, ahriDetailedVar)], list := [] } }

/-- What the formatter actually produces for the end-to-end scenario. -/
def ahriOutput : List Char :=
  "Deals <span class=\"ability-token\">100/150/200</span> magic damage (@Scaling@)".toList

/-- A variable named `Bar`, present while `Foo` is looked up. -/
def demoVar : AbilityVariable :=
  { name := "Bar".toList, type := [], values := [Dec.ofNat 1],
    displayValues := ["1".toList], scaling := [], scalings := [], cssClass := [] }

/-- Ability with description `deals {Foo} damage` and no variable named `Foo`. -/
def fooMissAbility : Ability :=
  { name := [],
    description := "deals ".toList ++ lbrace :: ("Foo".toList ++ rbrace :: " damage".toList),
    descriptionRaw := [],
    vars := [("Bar".toList, demoVar)] }

/-- A variable `D` with display values `10/20/30`. -/
def displayVar : AbilityVariable :=
  { name := "D".toList, type := [], values := [Dec.ofNat 10, Dec.ofNat 20, Dec.ofNat 30],
    displayValues := ["10".toList, "20".toList, "30".toList],
    scaling := [], scalings := [], cssClass := [] }

/-- A variable map holding only `D`. -/
def dVars : List (List Char × AbilityVariable) := [("D".toList, displayVar)]

/-- The variable refuting C4's unconditional fall-through: field `scaling`
with `scalings = [""]` joins to the empty string yet does not fall through to
the nonempty display values. -/
def cexScalingVar : AbilityVariable :=
  { name := "V".toList, type := [], values := [], displayValues := ["50".toList],
    scaling := [], scalings := [[]], cssClass := [] }

/-- A variable with one recognized and one unknown scaling code. -/
def apXyzVar : AbilityVariable :=
  { name := [], type := [], values := [], displayValues := [],
    scaling := [], scalings := ["AP".toList, "XYZ".toList], cssClass := [] }

/-- A raw ability in legacy form (no structured variables). -/
def legacyRawAbility : SetAbility :=
  { name := [],
    description := "deals @Damage@ to enemies".toList,
    descriptionRaw := [],
    rawVars := { map := [], list := [] } }

/-- The decoded value list for the JSON string `"25%"`. -/
def vl25 : ValueList :=
  { nums := [{ neg := false, mant := 25, scale := 0 }], display := ["25%".toList] }

/-- A mapping-form variable whose key carries a leading space. -/
def spacedDetailedVar : DetailedVar :=
  { values := { nums := [Dec.ofNat 5], display := ["5".toList] },
    type := [], scaling := [], cssClass := [] }

/-- A raw ability whose only variable key is `" Damage"` (untrimmed). -/
def spacedRawAbility : SetAbility :=
  { name := [], description := [], descriptionRaw := [],
    rawVars := { map := [(" Damage".toList, spacedDetailedVar)], list := [] } }

/-! ## Theorems -/

theorem scanReplaceSt_nil {σ : Type} (m : σ → List Char → Option (List Char × σ × List Char))
    (u : σ → Char → σ) (fuel : Nat) (st : σ) : scanReplaceSt m u fuel st [] = [] := by
  cases fuel <;> simp [scanReplaceSt]

theorem scanReplaceSt_congr {σ : Type} (m : σ → List Char → Option (List Char × σ × List Char))
    (u : σ → Char → σ)
    (hm : ∀ st s r st2 rest, m st s = some (r, st2, rest) → rest.length < s.length) :
    ∀ (n fuel1 fuel2 : Nat) (st : σ) (s : List Char), s.length ≤ n → s.length ≤ fuel1 →
      s.length ≤ fuel2 → scanReplaceSt m u fuel1 st s = scanReplaceSt m u fuel2 st s := by
  intro n
  induction n with
  | zero =>
    intro fuel1 fuel2 st s hn _ _
    have hs : s = [] := List.length_eq_zero.mp (Nat.le_zero.mp hn)
    subst hs
    rw [scanReplaceSt_nil, scanReplaceSt_nil]
  | succ k ih =>
    intro fuel1 fuel2 st s hn h1 h2
    cases s with
    | nil => rw [scanReplaceSt_nil, scanReplaceSt_nil]
    | cons c cs =>
      simp only [List.length_cons] at hn h1 h2
      cases fuel1 with
      | zero => omega
      | succ g1 =>
        cases fuel2 with
        | zero => omega
        | succ g2 =>
          simp only [scanReplaceSt]
          cases hmm : m st (c :: cs) with
          | none =>
            have := ih g1 g2 (u st c) cs (by omega) (by omega) (by omega)
            simp [this]
          | some t =>
            obtain ⟨r, st2, rest⟩ := t
            have hlen := hm st (c :: cs) r st2 rest hmm
            simp only [List.length_cons] at hlen
            have := ih g1 g2 st2 rest (by omega) (by omega) (by omega)
            simp [this]

theorem scanCore_nil {σ : Type} (m : σ → List Char → Option (List Char × σ × List Char))
    (u : σ → Char → σ) (st : σ) : scanCore m u st [] = [] := by
  simp [scanCore, scanReplaceSt_nil]

/-- Stepping over a position where the matcher does not fire emits the
character and advances the left-context state. -/
theorem scanCore_step_none {σ : Type} (m : σ → List Char → Option (List Char × σ × List Char))
    (u : σ → Char → σ) (st : σ) (c : Char) (cs : List Char) (h : m st (c :: cs) = none) :
    scanCore m u st (c :: cs) = c :: scanCore m u (u st c) cs := by
  simp [scanCore, scanReplaceSt, h]

/-- A matcher hit emits the replacement and resumes after the match. -/
theorem scanCore_step_some {σ : Type} (m : σ → List Char → Option (List Char × σ × List Char))
    (u : σ → Char → σ)
    (hm : ∀ st s r st2 rest, m st s = some (r, st2, rest) → rest.length < s.length)
    (st : σ) (c : Char) (cs : List Char) (r : List Char) (st2 : σ) (rest : List Char)
    (h : m st (c :: cs) = some (r, st2, rest)) :
    scanCore m u st (c :: cs) = r ++ scanCore m u st2 rest := by
  have hlen := hm st (c :: cs) r st2 rest h
  simp only [List.length_cons] at hlen
  simp only [scanCore, List.length_cons, scanReplaceSt, h]
  rw [scanReplaceSt_congr m u hm cs.length cs.length rest.length st2 rest
    (by omega) (by omega) (by omega)]

/-- A run of characters on which the matcher can never fire is passed
through verbatim. -/
theorem scanCore_pass {σ : Type} (m : σ → List Char → Option (List Char × σ × List Char))
    (u : σ → Char → σ) :
    ∀ (l rest : List Char) (st : σ),
      (∀ st2 c cs, c ∈ l → m st2 (c :: cs) = none) →
      scanCore m u st (l ++ rest) = l ++ scanCore m u (l.foldl u st) rest := by
  intro l
  induction l with
  | nil => intro rest st _; simp
  | cons c l2 ih =>
    intro rest st hl
    have h0 : m st (c :: (l2 ++ rest)) = none := hl st c (l2 ++ rest) (by simp)
    calc scanCore m u st ((c :: l2) ++ rest)
        = c :: scanCore m u (u st c) (l2 ++ rest) := scanCore_step_none m u st c (l2 ++ rest) h0
      _ = c :: (l2 ++ scanCore m u (l2.foldl u (u st c)) rest) := by
          rw [ih rest (u st c) (fun st2 d cs hd => hl st2 d cs (by simp [hd]))]
      _ = (c :: l2) ++ scanCore m u ((c :: l2).foldl u st) rest := by simp

/-- If every replacement a matcher produces is nonempty, the scan maps
nonempty input to nonempty output. -/
theorem scanCore_ne_nil {σ : Type} (m : σ → List Char → Option (List Char × σ × List Char))
    (u : σ → Char → σ)
    (hr : ∀ st s r st2 rest, m st s = some (r, st2, rest) → r ≠ []) :
    ∀ (st : σ) (s : List Char), s ≠ [] → scanCore m u st s ≠ [] := by
  intro st s hs
  cases s with
  | nil => exact absurd rfl hs
  | cons c cs =>
    cases hmm : m st (c :: cs) with
    | none =>
      simp only [scanCore, List.length_cons, scanReplaceSt, hmm]
      simp
    | some t =>
      obtain ⟨r, st2, rest⟩ := t
      simp only [scanCore, List.length_cons, scanReplaceSt, hmm]
      have := hr st (c :: cs) r st2 rest hmm
      simp [this]

/-! ## Helper lemmas -/

theorem length_dropWhile_le (p : Char → Bool) (l : List Char) :
    (l.dropWhile p).length ≤ l.length := by
  induction l with
  | nil => simp [List.dropWhile]
  | cons c cs ih =>
    simp only [List.dropWhile]
    cases p c
    · simp
    · simp; omega

theorem takeWhile_app (p : Char → Bool) (l : List Char) (d : Char) (r : List Char)
    (hl : ∀ c ∈ l, p c = true) (hd : p d = false) :
    (l ++ d :: r).takeWhile p = l := by
  induction l with
  | nil => simp [List.takeWhile, hd]
  | cons c cs ih =>
    have hc : p c = true := hl c (by simp)
    simp [List.takeWhile, hc, ih (fun x hx => hl x (by simp [hx]))]

theorem dropWhile_app (p : Char → Bool) (l : List Char) (d : Char) (r : List Char)
    (hl : ∀ c ∈ l, p c = true) (hd : p d = false) :
    (l ++ d :: r).dropWhile p = d :: r := by
  induction l with
  | nil => simp [List.dropWhile, hd]
  | cons c cs ih =>
    have hc : p c = true := hl c (by simp)
    simp [List.dropWhile, hc, ih (fun x hx => hl x (by simp [hx]))]

theorem takeWhile_all (p : Char → Bool) (l : List Char) (hl : ∀ c ∈ l, p c = true) :
    l.takeWhile p = l := by
  induction l with
  | nil => simp
  | cons c cs ih =>
    have hc : p c = true := hl c (by simp)
    simp [List.takeWhile, hc, ih (fun x hx => hl x (by simp [hx]))]

theorem dropWhile_all (p : Char → Bool) (l : List Char) (hl : ∀ c ∈ l, p c = true) :
    l.dropWhile p = [] := by
  induction l with
  | nil => simp
  | cons c cs ih =>
    have hc : p c = true := hl c (by simp)
    simp [List.dropWhile, hc, ih (fun x hx => hl x (by simp [hx]))]

theorem dropWhile_ne_nil_of_wit (p : Char → Bool) (l : List Char)
    (h : ∃ c ∈ l, p c = false) : l.dropWhile p ≠ [] := by
  induction l with
  | nil => simp at h
  | cons c cs ih =>
    simp only [List.dropWhile]
    cases hc : p c with
    | false => simp
    | true =>
      simp only [hc]
      apply ih
      obtain ⟨d, hd, hdp⟩ := h
      rcases List.mem_cons.mp hd with hd | hd
      · subst hd; rw [hc] at hdp; cases hdp
      · exact ⟨d, hd, hdp⟩

theorem dropWhile_wit (p : Char → Bool) (l : List Char)
    (h : ∃ c ∈ l, p c = false) : ∃ c ∈ l.dropWhile p, p c = false := by
  induction l with
  | nil => simp at h
  | cons c cs ih =>
    simp only [List.dropWhile]
    cases hc : p c with
    | false => exact ⟨c, by simp, hc⟩
    | true =>
      apply ih
      obtain ⟨d, hd, hdp⟩ := h
      rcases List.mem_cons.mp hd with hd | hd
      · subst hd; rw [hc] at hdp; cases hdp
      · exact ⟨d, hd, hdp⟩

theorem trimSpace_ne_nil (l : List Char) (h : ∃ c ∈ l, isUniSpace c = false) :
    trimSpace l ≠ [] := by
  have h1 : ∃ c ∈ trimLeft l, isUniSpace c = false := dropWhile_wit _ l h
  have h2 : ∃ c ∈ (trimLeft l).reverse, isUniSpace c = false := by
    obtain ⟨c, hc, hcp⟩ := h1
    exact ⟨c, List.mem_reverse.mpr hc, hcp⟩
  have h3 := dropWhile_ne_nil_of_wit isUniSpace (trimLeft l).reverse h2
  simp only [trimSpace, trimRight]
  intro hcontra
  exact h3 (by simpa using hcontra)

theorem leadsWith_app (pat r : List Char) : leadsWith pat (pat ++ r) = true := by
  induction pat with
  | nil => simp [leadsWith]
  | cons c cs ih => simp [leadsWith, ih]

theorem containsSub_nil (l : List Char) : containsSub [] l = true := by
  cases l <;> simp [containsSub, leadsWith]

theorem containsSub_of_parts (pat t1 t2 : List Char) :
    containsSub pat (t1 ++ pat ++ t2) = true := by
  induction t1 with
  | nil =>
    cases hpat : pat with
    | nil => simp [hpat, containsSub_nil]
    | cons p ps =>
      simp only [List.nil_append]
      rw [← hpat]
      have hne : pat ++ t2 ≠ [] := by simp [hpat]
      cases hp2 : pat ++ t2 with
      | nil => exact absurd hp2 hne
      | cons d ds => simp [containsSub, ← hp2, leadsWith_app]
  | cons c cs ih =>
    simp only [containsSub, List.cons_append, List.append_assoc, Bool.or_eq_true]
    exact Or.inr (by simpa [List.append_assoc] using ih)

/-! ## Matcher side conditions -/

theorem parseAtAfter_length (cs tok rest : List Char) (h : parseAtAfter cs = some (tok, rest)) :
    rest.length ≤ cs.length := by
  have hdw := length_dropWhile_le isSegChar cs
  simp only [parseAtAfter] at h
  split at h
  · cases h
  · split at h
    · rename_i c t heq
      have hlen1 : t.length + 1 ≤ cs.length := by
        have := heq ▸ hdw
        simpa using this
      split at h
      · simp only [Option.some.injEq, Prod.mk.injEq] at h
        obtain ⟨h1, h2⟩ := h
        subst h2
        omega
      · split at h
        · split at h
          · cases h
          · have hdw2 := length_dropWhile_le isSegChar t
            split at h
            · rename_i c2 t2 heq2
              have hlen2 : t2.length + 1 ≤ t.length := by
                have := heq2 ▸ hdw2
                simpa using this
              split at h
              · simp only [Option.some.injEq, Prod.mk.injEq] at h
                obtain ⟨h1, h2⟩ := h
                subst h2
                omega
              · cases h
            · cases h
        · cases h
    · cases h

theorem atMatcher_length (vars : List (List Char × AbilityVariable)) :
    ∀ (st : Unit) (s r : List Char) (st2 : Unit) (rest : List Char),
      atMatcher vars st s = some (r, st2, rest) → rest.length < s.length := by
  intro st s r st2 rest h
  cases s with
  | nil => simp [atMatcher] at h
  | cons c cs =>
    simp only [atMatcher] at h
    split at h
    · split at h
      · rename_i tok rest1 heq
        simp only [Option.some.injEq, Prod.mk.injEq] at h
        obtain ⟨h1, h2, h3⟩ := h
        subst h3
        have := parseAtAfter_length cs tok rest1 heq
        simp only [List.length_cons]
        omega
      · cases h
    · cases h

theorem atMatcher_none (vars : List (List Char × AbilityVariable)) (st : Unit) (c : Char)
    (cs : List Char) (hc : ¬ c = Char.ofNat 64) : atMatcher vars st (c :: cs) = none := by
  simp [atMatcher, hc]

theorem parseBraceAfter_length (cs tok rest : List Char)
    (h : parseBraceAfter cs = some (tok, rest)) : rest.length ≤ cs.length := by
  have hdw := length_dropWhile_le isBraceChar cs
  simp only [parseBraceAfter] at h
  split at h
  · cases h
  · split at h
    · rename_i c t heq
      have hlen1 : t.length + 1 ≤ cs.length := by
        have := heq ▸ hdw
        simpa using this
      split at h
      · simp only [Option.some.injEq, Prod.mk.injEq] at h
        obtain ⟨h1, h2⟩ := h
        subst h2
        omega
      · cases h
    · cases h

theorem braceMatcher_length (vars : List (List Char × AbilityVariable)) :
    ∀ (st : Unit) (s r : List Char) (st2 : Unit) (rest : List Char),
      braceMatcher vars st s = some (r, st2, rest) → rest.length < s.length := by
  intro st s r st2 rest h
  cases s with
  | nil => simp [braceMatcher] at h
  | cons c cs =>
    simp only [braceMatcher] at h
    split at h
    · split at h
      · rename_i tok rest1 heq
        simp only [Option.some.injEq, Prod.mk.injEq] at h
        obtain ⟨h1, h2, h3⟩ := h
        subst h3
        have := parseBraceAfter_length cs tok rest1 heq
        simp only [List.length_cons]
        omega
      · cases h
    · cases h

theorem braceMatcher_none (vars : List (List Char × AbilityVariable)) (st : Unit) (c : Char)
    (cs : List Char) (hc : ¬ c = lbrace) : braceMatcher vars st (c :: cs) = none := by
  simp [braceMatcher, hc]

theorem parenMatcher_length (vars : List (List Char × AbilityVariable)) :
    ∀ (st : Unit) (s r : List Char) (st2 : Unit) (rest : List Char),
      parenMatcher vars st s = some (r, st2, rest) → rest.length < s.length := by
  intro st s r st2 rest h
  cases s with
  | nil => simp [parenMatcher] at h
  | cons c cs =>
    have hdw := length_dropWhile_le notParen cs
    simp only [parenMatcher] at h
    split at h
    · split at h
      · rename_i d t heq
        have hlen1 : t.length + 1 ≤ cs.length := by
          have := heq ▸ hdw
          simpa using this
        split at h
        · simp only [Option.some.injEq, Prod.mk.injEq] at h
          obtain ⟨h1, h2, h3⟩ := h
          subst h3
          simp only [List.length_cons]
          omega
        · cases h
      · cases h
    · cases h

theorem parenMatcher_none (vars : List (List Char × AbilityVariable)) (st : Unit) (c : Char)
    (cs : List Char) (hc : ¬ c = Char.ofNat 40) : parenMatcher vars st (c :: cs) = none := by
  simp [parenMatcher, hc]

theorem substToken_ne_nil (vars : List (List Char × AbilityVariable))
    (matchText tok : List Char) (h : matchText ≠ []) : substToken vars matchText tok ≠ [] := by
  simp only [substToken]
  split
  · exact h
  · split
    · exact h
    · assumption

theorem atMatcher_repl_ne_nil (vars : List (List Char × AbilityVariable)) :
    ∀ (st : Unit) (s r : List Char) (st2 : Unit) (rest : List Char),
      atMatcher vars st s = some (r, st2, rest) → r ≠ [] := by
  intro st s r st2 rest h
  cases s with
  | nil => simp [atMatcher] at h
  | cons c cs =>
    simp only [atMatcher] at h
    split at h
    · split at h
      · rename_i tok rest1 heq
        simp only [Option.some.injEq, Prod.mk.injEq] at h
        obtain ⟨h1, h2, h3⟩ := h
        rw [← h1]
        exact substToken_ne_nil vars _ tok (by simp)
      · cases h
    · cases h

theorem braceMatcher_repl_ne_nil (vars : List (List Char × AbilityVariable)) :
    ∀ (st : Unit) (s r : List Char) (st2 : Unit) (rest : List Char),
      braceMatcher vars st s = some (r, st2, rest) → r ≠ [] := by
  intro st s r st2 rest h
  cases s with
  | nil => simp [braceMatcher] at h
  | cons c cs =>
    simp only [braceMatcher] at h
    split at h
    · split at h
      · rename_i tok rest1 heq
        simp only [Option.some.injEq, Prod.mk.injEq] at h
        obtain ⟨h1, h2, h3⟩ := h
        rw [← h1]
        exact substToken_ne_nil vars _ tok (by simp)
      · cases h
    · cases h

/-! ## Exact-match and miss lemmas for the token scanners -/

theorem isSegChar_not_dot (c : Char) (h : isSegChar c = true) : isDotChar c = false := by
  cases hd : isDotChar c
  · rfl
  · have hc : c = Char.ofNat 46 := by simpa [isDotChar] using hd
    rw [hc] at h
    exact absurd h (by decide)

theorem parseAtAfter_name (name suf : List Char) (hn : name ≠ [])
    (hseg : ∀ c ∈ name, isSegChar c = true) :
    parseAtAfter (name ++ Char.ofNat 64 :: suf) = some (name, suf) := by
  have hat : isSegChar (Char.ofNat 64) = false := by decide
  have htw := takeWhile_app isSegChar name (Char.ofNat 64) suf hseg hat
  have hdw := dropWhile_app isSegChar name (Char.ofNat 64) suf hseg hat
  simp [parseAtAfter, htw, hdw, hn]

theorem parseAtAfter_name_field (name field suf : List Char) (hn : name ≠ [])
    (hf : field ≠ []) (hsn : ∀ c ∈ name, isSegChar c = true)
    (hsf : ∀ c ∈ field, isSegChar c = true) :
    parseAtAfter (name ++ Char.ofNat 46 :: (field ++ Char.ofNat 64 :: suf)) =
      some (name ++ Char.ofNat 46 :: field, suf) := by
  have hdot : isSegChar (Char.ofNat 46) = false := by decide
  have hat : isSegChar (Char.ofNat 64) = false := by decide
  have htw := takeWhile_app isSegChar name (Char.ofNat 46) (field ++ Char.ofNat 64 :: suf) hsn hdot
  have hdw := dropWhile_app isSegChar name (Char.ofNat 46) (field ++ Char.ofNat 64 :: suf) hsn hdot
  have htw2 := takeWhile_app isSegChar field (Char.ofNat 64) suf hsf hat
  have hdw2 := dropWhile_app isSegChar field (Char.ofNat 64) suf hsf hat
  simp [parseAtAfter, htw, hdw, htw2, hdw2, hn, hf, isDotChar]

theorem splitToken_no_dot (tok : List Char) (h : ∀ c ∈ tok, isDotChar c = false) :
    splitToken tok = (tok, []) := by
  have : tok.dropWhile (fun c => !(isDotChar c)) = [] :=
    dropWhile_all _ tok (fun c hc => by simp [h c hc])
  simp [splitToken, this]

theorem splitToken_dot (name field : List Char) (h : ∀ c ∈ name, isDotChar c = false) :
    splitToken (name ++ Char.ofNat 46 :: field) = (name, field) := by
  have hpt : ∀ c ∈ name, (fun c => !(isDotChar c)) c = true := fun c hc => by simp [h c hc]
  have hpd : (fun c => !(isDotChar c)) (Char.ofNat 46) = false := by decide
  have htw := takeWhile_app (fun c => !(isDotChar c)) name (Char.ofNat 46) field hpt hpd
  have hdw := dropWhile_app (fun c => !(isDotChar c)) name (Char.ofNat 46) field hpt hpd
  simp [splitToken, htw, hdw]

theorem scanCore_at_miss (vars : List (List Char × AbilityVariable)) (name suf : List Char)
    (hn : name ≠ []) (hseg : ∀ c ∈ name, isSegChar c = true)
    (hmiss : lookupBy vars name = none) :
    scanCore (atMatcher vars) noSt () (Char.ofNat 64 :: (name ++ Char.ofNat 64 :: suf)) =
      Char.ofNat 64 :: (name ++ Char.ofNat 64 :: scanCore (atMatcher vars) noSt () suf) := by
  have hpa := parseAtAfter_name name suf hn hseg
  have hsplit := splitToken_no_dot name (fun c hc => isSegChar_not_dot c (hseg c hc))
  have hmatch : atMatcher vars () (Char.ofNat 64 :: (name ++ Char.ofNat 64 :: suf)) =
      some (Char.ofNat 64 :: name ++ [Char.ofNat 64], (), suf) := by
    simp [atMatcher, hpa, substToken, hsplit, hmiss]
  have := scanCore_step_some (atMatcher vars) noSt (atMatcher_length vars) ()
    (Char.ofNat 64) (name ++ Char.ofNat 64 :: suf)
    (Char.ofNat 64 :: name ++ [Char.ofNat 64]) () suf hmatch
  rw [this]
  simp

theorem scanCore_at_miss_field (vars : List (List Char × AbilityVariable))
    (name field suf : List Char) (hn : name ≠ []) (hf : field ≠ [])
    (hsn : ∀ c ∈ name, isSegChar c = true) (hsf : ∀ c ∈ field, isSegChar c = true)
    (hmiss : lookupBy vars name = none) :
    scanCore (atMatcher vars) noSt ()
        (Char.ofNat 64 :: (name ++ Char.ofNat 46 :: (field ++ Char.ofNat 64 :: suf))) =
      Char.ofNat 64 :: (name ++ Char.ofNat 46 ::
        (field ++ Char.ofNat 64 :: scanCore (atMatcher vars) noSt () suf)) := by
  have hpa := parseAtAfter_name_field name field suf hn hf hsn hsf
  have hsplit := splitToken_dot name field (fun c hc => isSegChar_not_dot c (hsn c hc))
  have hmatch : atMatcher vars ()
      (Char.ofNat 64 :: (name ++ Char.ofNat 46 :: (field ++ Char.ofNat 64 :: suf))) =
      some (Char.ofNat 64 :: (name ++ Char.ofNat 46 :: field) ++ [Char.ofNat 64], (), suf) := by
    simp [atMatcher, hpa, substToken, hsplit, hmiss]
  have := scanCore_step_some (atMatcher vars) noSt (atMatcher_length vars) ()
    (Char.ofNat 64) (name ++ Char.ofNat 46 :: (field ++ Char.ofNat 64 :: suf))
    (Char.ofNat 64 :: (name ++ Char.ofNat 46 :: field) ++ [Char.ofNat 64]) () suf hmatch
  rw [this]
  simp

theorem scanCore_brace_miss (vars : List (List Char × AbilityVariable)) (tok suf : List Char)
    (ht : tok ≠ []) (hbr : ∀ c ∈ tok, isBraceChar c = true)
    (hmiss : lookupBy vars (splitToken tok).1 = none) :
    scanCore (braceMatcher vars) noSt () (lbrace :: (tok ++ rbrace :: suf)) =
      lbrace :: (tok ++ rbrace :: scanCore (braceMatcher vars) noSt () suf) := by
  have hrb : isBraceChar rbrace = false := by decide
  have htw := takeWhile_app isBraceChar tok rbrace suf hbr hrb
  have hdw := dropWhile_app isBraceChar tok rbrace suf hbr hrb
  have hpb : parseBraceAfter (tok ++ rbrace :: suf) = some (tok, suf) := by
    simp [parseBraceAfter, htw, hdw, ht]
  have hmatch : braceMatcher vars () (lbrace :: (tok ++ rbrace :: suf)) =
      some (lbrace :: tok ++ [rbrace], (), suf) := by
    simp [braceMatcher, hpb, substToken, hmiss]
  have := scanCore_step_some (braceMatcher vars) noSt (braceMatcher_length vars) ()
    lbrace (tok ++ rbrace :: suf) (lbrace :: tok ++ [rbrace]) () suf hmatch
  rw [this]
  simp

/-- Shared: an at-token whose name is not a variable key is left verbatim
(no-field form), with scanning resuming after it. -/
theorem replaceAt_miss (vars : List (List Char × AbilityVariable)) (pre name suf : List Char)
    (hpre : ∀ c ∈ pre, ¬ c = Char.ofNat 64) (hn : name ≠ [])
    (hseg : ∀ c ∈ name, isSegChar c = true) (hmiss : lookupBy vars name = none) :
    replaceAbilityTokens (pre ++ Char.ofNat 64 :: (name ++ Char.ofNat 64 :: suf)) vars
        TokenRe.atRe =
      pre ++ Char.ofNat 64 ::
        (name ++ Char.ofNat 64 :: replaceAbilityTokens suf vars TokenRe.atRe) := by
  by_cases hv : vars = []
  · simp [replaceAbilityTokens, hv]
  · simp only [replaceAbilityTokens, hv, if_neg]
    rw [scanCore_pass (atMatcher vars) noSt pre _ ()
      (fun st2 c cs hc => atMatcher_none vars st2 c cs (hpre c hc))]
    have hfold : pre.foldl noSt () = () := rfl
    rw [hfold, scanCore_at_miss vars name suf hn hseg hmiss]
    simp

/-- Shared: an at-token `name.field` whose name is not a variable key is left
verbatim. -/
theorem replaceAt_miss_field (vars : List (List Char × AbilityVariable))
    (pre name field suf : List Char) (hpre : ∀ c ∈ pre, ¬ c = Char.ofNat 64)
    (hn : name ≠ []) (hf : field ≠ []) (hsn : ∀ c ∈ name, isSegChar c = true)
    (hsf : ∀ c ∈ field, isSegChar c = true) (hmiss : lookupBy vars name = none) :
    replaceAbilityTokens
        (pre ++ Char.ofNat 64 :: (name ++ Char.ofNat 46 :: (field ++ Char.ofNat 64 :: suf)))
        vars TokenRe.atRe =
      pre ++ Char.ofNat 64 :: (name ++ Char.ofNat 46 ::
        (field ++ Char.ofNat 64 :: replaceAbilityTokens suf vars TokenRe.atRe)) := by
  by_cases hv : vars = []
  · simp [replaceAbilityTokens, hv]
  · simp only [replaceAbilityTokens, hv, if_neg]
    rw [scanCore_pass (atMatcher vars) noSt pre _ ()
      (fun st2 c cs hc => atMatcher_none vars st2 c cs (hpre c hc))]
    have hfold : pre.foldl noSt () = () := rfl
    rw [hfold, scanCore_at_miss_field vars name field suf hn hf hsn hsf hmiss]
    simp

/-- Shared: a brace-token whose first segment is not a variable key is left
verbatim. -/
theorem replaceBrace_miss (vars : List (List Char × AbilityVariable)) (pre tok suf : List Char)
    (hpre : ∀ c ∈ pre, ¬ c = lbrace) (ht : tok ≠ [])
    (hbr : ∀ c ∈ tok, isBraceChar c = true)
    (hmiss : lookupBy vars (splitToken tok).1 = none) :
    replaceAbilityTokens (pre ++ lbrace :: (tok ++ rbrace :: suf)) vars TokenRe.braceRe =
      pre ++ lbrace :: (tok ++ rbrace :: replaceAbilityTokens suf vars TokenRe.braceRe) := by
  by_cases hv : vars = []
  · simp [replaceAbilityTokens, hv]
  · simp only [replaceAbilityTokens, hv, if_neg]
    rw [scanCore_pass (braceMatcher vars) noSt pre _ ()
      (fun st2 c cs hc => braceMatcher_none vars st2 c cs (hpre c hc))]
    have hfold : pre.foldl noSt () = () := rfl
    rw [hfold, scanCore_brace_miss vars tok suf ht hbr hmiss]
    simp

/-! ## Nonemptiness and marker facts for the parenthesized pass -/

theorem replaceAbilityTokens_ne_nil (s : List Char) (vars : List (List Char × AbilityVariable))
    (re : TokenRe) (h : s ≠ []) : replaceAbilityTokens s vars re ≠ [] := by
  by_cases hv : vars = []
  · simpa [replaceAbilityTokens, hv] using h
  · cases re with
    | atRe =>
      simp only [replaceAbilityTokens, hv, if_neg]
      exact scanCore_ne_nil (atMatcher vars) noSt (atMatcher_repl_ne_nil vars) () s h
    | braceRe =>
      simp only [replaceAbilityTokens, hv, if_neg]
      exact scanCore_ne_nil (braceMatcher vars) noSt (braceMatcher_repl_ne_nil vars) () s h

theorem hasAtMarkerAux_mem : ∀ (st : Option Bool) (l : List Char),
    hasAtMarkerAux st l = true → Char.ofNat 64 ∈ l := by
  intro st l
  induction l generalizing st with
  | nil => intro h; simp [hasAtMarkerAux] at h
  | cons c cs ih =>
    intro h
    cases st with
    | none =>
      simp only [hasAtMarkerAux] at h
      by_cases hc : c = Char.ofNat 64
      · simp [hc]
      · rw [if_neg hc] at h
        exact List.mem_cons_of_mem c (ih none h)
    | some g =>
      simp only [hasAtMarkerAux] at h
      by_cases hc : c = Char.ofNat 64
      · simp [hc]
      · rw [if_neg hc] at h
        exact List.mem_cons_of_mem c (ih (some true) h)

theorem trim_ne_nil_of_marker (inner : List Char) (hm : hasAtMarker inner = true) :
    trimSpace inner ≠ [] := by
  have hmem := hasAtMarkerAux_mem none inner hm
  exact trimSpace_ne_nil inner ⟨Char.ofNat 64, hmem, by decide⟩

theorem renderParenInner_ne_nil (vars : List (List Char × AbilityVariable)) (inner : List Char)
    (hm : hasAtMarker inner = true) : renderParenInner vars (trimSpace inner) ≠ [] := by
  apply replaceAbilityTokens_ne_nil
  apply replaceAbilityTokens_ne_nil
  exact trim_ne_nil_of_marker inner hm

theorem notParen_ne_lparen (c : Char) (h : notParen c = true) : ¬ c = Char.ofNat 40 := by
  intro hc
  rw [hc] at h
  exact absurd h (by decide)

/-- The parenthesized-group pass on one parenthetical in context: wrapped
exactly when the inner text holds an `@…@` marker and rendering its trimmed
contents changes them; otherwise the original parenthetical is kept
byte-for-byte. -/
theorem replaceParen_eq (vars : List (List Char × AbilityVariable)) (pre inner suf : List Char)
    (hpre : ∀ c ∈ pre, ¬ c = Char.ofNat 40) (hin : ∀ c ∈ inner, notParen c = true) :
    replaceParenthesizedTokens (pre ++ Char.ofNat 40 :: (inner ++ Char.ofNat 41 :: suf)) vars =
      pre ++
        (if hasAtMarker inner = true ∧
            renderParenInner vars (trimSpace inner) ≠ trimSpace inner then
          parenWrap (renderParenInner vars (trimSpace inner))
        else Char.ofNat 40 :: (inner ++ [Char.ofNat 41])) ++
        replaceParenthesizedTokens suf vars := by
  have hrp : notParen (Char.ofNat 41) = false := by decide
  have htw := takeWhile_app notParen inner (Char.ofNat 41) suf hin hrp
  have hdw := dropWhile_app notParen inner (Char.ofNat 41) suf hin hrp
  by_cases hv : vars = []
  · subst hv
    have hid : ∀ t, renderParenInner [] t = t := by
      intro t; simp [renderParenInner, replaceAbilityTokens]
    simp [replaceParenthesizedTokens, hid]
  · simp only [replaceParenthesizedTokens, hv, if_neg]
    rw [scanCore_pass (parenMatcher vars) noSt pre _ ()
      (fun st2 c cs hc => parenMatcher_none vars st2 c cs (hpre c hc))]
    have hfold : pre.foldl noSt () = () := rfl
    rw [hfold]
    by_cases hm : hasAtMarker inner = true
    · have hmatch : parenMatcher vars () (Char.ofNat 40 :: (inner ++ Char.ofNat 41 :: suf)) =
          some (parenRepl vars (Char.ofNat 40 :: inner ++ [Char.ofNat 41]) inner, (), suf) := by
        simp [parenMatcher, htw, hdw, hm]
      rw [scanCore_step_some (parenMatcher vars) noSt (parenMatcher_length vars) ()
        (Char.ofNat 40) (inner ++ Char.ofNat 41 :: suf) _ () suf hmatch]
      by_cases hr : renderParenInner vars (trimSpace inner) = trimSpace inner
      · have hkeep : parenRepl vars (Char.ofNat 40 :: inner ++ [Char.ofNat 41]) inner =
            Char.ofNat 40 :: inner ++ [Char.ofNat 41] := by
          simp [parenRepl, hr]
        rw [hkeep]
        simp [hm, hr]
      · have hne := renderParenInner_ne_nil vars inner hm
        have hwrap : parenRepl vars (Char.ofNat 40 :: inner ++ [Char.ofNat 41]) inner =
            parenWrap (renderParenInner vars (trimSpace inner)) := by
          simp [parenRepl, hr, hne]
        rw [hwrap]
        simp [hm, hr]
    · have hnone : parenMatcher vars () (Char.ofNat 40 :: (inner ++ Char.ofNat 41 :: suf)) =
          none := by
        simp [parenMatcher, htw, hdw, hm]
      rw [scanCore_step_none (parenMatcher vars) noSt () (Char.ofNat 40)
        (inner ++ Char.ofNat 41 :: suf) hnone]
      have hrw : inner ++ Char.ofNat 41 :: suf = (inner ++ [Char.ofNat 41]) ++ suf := by simp
      rw [hrw]
      rw [scanCore_pass (parenMatcher vars) noSt (inner ++ [Char.ofNat 41]) suf (noSt () (Char.ofNat 40))
        (fun st2 c cs hc => by
          rcases List.mem_append.mp hc with hc | hc
          · exact parenMatcher_none vars st2 c cs (notParen_ne_lparen c (hin c hc))
          · have hc41 : c = Char.ofNat 41 := by simpa using hc
            exact parenMatcher_none vars st2 c cs (by rw [hc41]; decide))]
      have hfold2 : (inner ++ [Char.ofNat 41]).foldl noSt (noSt () (Char.ofNat 40)) = () := rfl
      rw [hfold2]
      simp [hm]

/-! ## Legacy-token conversion lemmas (Description Normalizer step 9) -/

theorem leadsWith_cons_ne (p c : Char) (ps cs : List Char) (h : ¬ p = c) :
    leadsWith (p :: ps) (c :: cs) = false := by
  simp [leadsWith, h]

theorem legacyVarMatcher_length :
    ∀ (st : Unit) (s r : List Char) (st2 : Unit) (rest : List Char),
      legacyVarMatcher st s = some (r, st2, rest) → rest.length < s.length := by
  intro st s r st2 rest h
  cases s with
  | nil => simp [legacyVarMatcher] at h
  | cons c cs =>
    have hdw := length_dropWhile_le isWordChar cs
    simp only [legacyVarMatcher] at h
    split at h
    · split at h
      · cases h
      · split at h
        · simp only [Option.some.injEq, Prod.mk.injEq] at h
          obtain ⟨h1, h2, h3⟩ := h
          subst h3
          have := List.length_drop 5 (cs.dropWhile isWordChar)
          simp only [List.length_cons]
          omega
        · split at h
          · rename_i d t heq
            split at h
            · simp only [Option.some.injEq, Prod.mk.injEq] at h
              obtain ⟨h1, h2, h3⟩ := h
              subst h3
              have : (d :: t).length ≤ cs.length := heq ▸ hdw
              simp only [List.length_cons] at this ⊢
              omega
            · cases h
          · cases h
    · cases h

theorem legacyVarMatcher_none (st : Unit) (c : Char) (cs : List Char)
    (hc : ¬ c = Char.ofNat 64) : legacyVarMatcher st (c :: cs) = none := by
  simp [legacyVarMatcher, hc]

theorem isWordChar_at_false : isWordChar (Char.ofNat 64) = false := by decide

theorem convertLegacy_step_plain (name suf : List Char) (hn : name ≠ [])
    (hw : ∀ c ∈ name, isWordChar c = true) :
    convertLegacyTokens (Char.ofNat 64 :: (name ++ Char.ofNat 64 :: suf)) =
      lbrace :: (name ++ rbrace :: convertLegacyTokens suf) := by
  have htw := takeWhile_app isWordChar name (Char.ofNat 64) suf hw isWordChar_at_false
  have hdw := dropWhile_app isWordChar name (Char.ofNat 64) suf hw isWordChar_at_false
  have hlw : leadsWith star100At (Char.ofNat 64 :: suf) = false := by
    have hst : star100At = Char.ofNat 42 :: (star100.tail ++ [Char.ofNat 64]) := rfl
    rw [hst]
    exact leadsWith_cons_ne _ _ _ _ (by decide)
  have hmatch : legacyVarMatcher () (Char.ofNat 64 :: (name ++ Char.ofNat 64 :: suf)) =
      some (lbrace :: name ++ [rbrace], (), suf) := by
    simp [legacyVarMatcher, htw, hdw, hn, hlw]
  unfold convertLegacyTokens
  rw [scanCore_step_some legacyVarMatcher noSt legacyVarMatcher_length ()
    (Char.ofNat 64) (name ++ Char.ofNat 64 :: suf) _ () suf hmatch]
  simp

theorem convertLegacy_step_star (name suf : List Char) (hn : name ≠ [])
    (hw : ∀ c ∈ name, isWordChar c = true) :
    convertLegacyTokens (Char.ofNat 64 :: (name ++ star100 ++ Char.ofNat 64 :: suf)) =
      lbrace :: (name ++ star100 ++ rbrace :: convertLegacyTokens suf) := by
  have hstar : isWordChar (Char.ofNat 42) = false := by decide
  have harr : name ++ star100 ++ Char.ofNat 64 :: suf =
      name ++ Char.ofNat 42 :: (star100.tail ++ Char.ofNat 64 :: suf) := by
    simp [star100]
  have htw := takeWhile_app isWordChar name (Char.ofNat 42)
    (star100.tail ++ Char.ofNat 64 :: suf) hw hstar
  have hdw := dropWhile_app isWordChar name (Char.ofNat 42)
    (star100.tail ++ Char.ofNat 64 :: suf) hw hstar
  have hlw : leadsWith star100At
      (Char.ofNat 42 :: (star100.tail ++ Char.ofNat 64 :: suf)) = true := by
    have : Char.ofNat 42 :: (star100.tail ++ Char.ofNat 64 :: suf) = star100At ++ suf := by
      simp [star100At, star100]
    rw [this]
    exact leadsWith_app _ _
  have hdrop : (Char.ofNat 42 :: (star100.tail ++ Char.ofNat 64 :: suf)).drop 5 = suf := rfl
  have hmatch : legacyVarMatcher ()
      (Char.ofNat 64 :: (name ++ star100 ++ Char.ofNat 64 :: suf)) =
      some (lbrace :: name ++ star100 ++ [rbrace], (), suf) := by
    rw [harr]
    simp [legacyVarMatcher, htw, hdw, hn, hlw, hdrop]
  unfold convertLegacyTokens
  rw [scanCore_step_some legacyVarMatcher noSt legacyVarMatcher_length ()
    (Char.ofNat 64) (name ++ star100 ++ Char.ofNat 64 :: suf) _ () suf hmatch]
  simp

theorem convertLegacy_pass (pre rest : List Char) (hpre : ∀ c ∈ pre, ¬ c = Char.ofNat 64) :
    convertLegacyTokens (pre ++ rest) = pre ++ convertLegacyTokens rest := by
  unfold convertLegacyTokens
  rw [scanCore_pass legacyVarMatcher noSt pre rest ()
    (fun st2 c cs hc => legacyVarMatcher_none st2 c cs (hpre c hc))]

/-! ## Whitespace-collapse properties of `strings.Fields` + `strings.Join` -/

theorem fieldsAux_props (s : List Char) :
    ∀ (acc : List Char), (∀ c ∈ acc, isUniSpace c = false) →
      ∀ f ∈ fieldsAux s acc, f ≠ [] ∧ ∀ c ∈ f, isUniSpace c = false := by
  induction s with
  | nil =>
    intro acc hacc f hf
    simp only [fieldsAux] at hf
    split at hf
    · simp at hf
    · rename_i hne
      simp only [List.mem_singleton] at hf
      subst hf
      refine ⟨by simpa using hne, ?_⟩
      intro c hc
      exact hacc c (by simpa using hc)
  | cons c cs ih =>
    intro acc hacc f hf
    simp only [fieldsAux] at hf
    by_cases hsp : isUniSpace c = true
    · rw [if_pos hsp] at hf
      split at hf
      · exact ih [] (by simp) f hf
      · rename_i hne
        rcases List.mem_cons.mp hf with hf | hf
        · subst hf
          refine ⟨by simpa using hne, ?_⟩
          intro d hd
          exact hacc d (by simpa using hd)
        · exact ih [] (by simp) f hf
    · rw [if_neg hsp] at hf
      refine ih (c :: acc) ?_ f hf
      intro d hd
      rcases List.mem_cons.mp hd with hd | hd
      · subst hd
        simpa using hsp
      · exact hacc d hd

theorem fields_props (s : List Char) :
    ∀ f ∈ fields s, f ≠ [] ∧ ∀ c ∈ f, isUniSpace c = false :=
  fieldsAux_props s [] (by simp)

theorem joinSep_starts (sep : List Char) (y : List Char) (t : List (List Char)) :
    ∃ r, joinSep sep (y :: t) = y ++ r := by
  cases t with
  | nil => exact ⟨[], by simp [joinSep]⟩
  | cons z t2 => exact ⟨sep ++ joinSep sep (z :: t2), by simp [joinSep]⟩

theorem noTwoSpaces_append (f r : List Char) (hf : ∀ c ∈ f, isUniSpace c = false)
    (hr : noTwoSpaces r = true) : noTwoSpaces (f ++ r) = true := by
  induction f with
  | nil => simpa using hr
  | cons c f2 ih =>
    have hc : isUniSpace c = false := hf c (by simp)
    have htail := ih (fun d hd => hf d (by simp [hd]))
    cases hrest : f2 ++ r with
    | nil => rw [List.cons_append, hrest]; simp [noTwoSpaces]
    | cons d t =>
      have : noTwoSpaces (c :: d :: t) = (!(isUniSpace c && isUniSpace d) && noTwoSpaces (d :: t)) := rfl
      rw [List.cons_append, hrest, this, ← hrest, htail]
      simp [hc]

theorem joinSpace_noTwoSpaces (fs : List (List Char))
    (hfs : ∀ f ∈ fs, f ≠ [] ∧ ∀ c ∈ f, isUniSpace c = false) :
    noTwoSpaces (joinSep [Char.ofNat 32] fs) = true := by
  induction fs with
  | nil => simp [joinSep, noTwoSpaces]
  | cons x t ih =>
    cases t with
    | nil =>
      simp only [joinSep]
      simpa using noTwoSpaces_append x [] (hfs x (by simp)).2 (by simp [noTwoSpaces])
    | cons y t2 =>
      have hy := hfs y (by simp)
      have hjoin := ih (fun f hf => hfs f (by simp [hf]))
      obtain ⟨r, hr⟩ := joinSep_starts [Char.ofNat 32] y t2
      have hmid : noTwoSpaces (Char.ofNat 32 :: joinSep [Char.ofNat 32] (y :: t2)) = true := by
        rw [hr]
        cases hyy : y with
        | nil => exact absurd hyy hy.1
        | cons c y2 =>
          have hc : isUniSpace c = false := hy.2 c (by simp [hyy])
          have : noTwoSpaces (Char.ofNat 32 :: c :: (y2 ++ r)) =
              (!(isUniSpace (Char.ofNat 32) && isUniSpace c) && noTwoSpaces (c :: (y2 ++ r))) := rfl
          rw [List.cons_append, this]
          have h2 : noTwoSpaces (c :: (y2 ++ r)) = true := by
            rw [← List.cons_append, ← hyy, ← hr]
            exact hjoin
          rw [h2, hc]
          simp
      calc noTwoSpaces (joinSep [Char.ofNat 32] (x :: y :: t2))
          = noTwoSpaces (x ++ Char.ofNat 32 :: joinSep [Char.ofNat 32] (y :: t2)) := by
            simp [joinSep]
        _ = true := noTwoSpaces_append x _ (hfs x (by simp)).2 hmid

theorem joinSpace_mem (fs : List (List Char)) (c : Char)
    (hc : c ∈ joinSep [Char.ofNat 32] fs) : c = Char.ofNat 32 ∨ ∃ f ∈ fs, c ∈ f := by
  induction fs with
  | nil => simp [joinSep] at hc
  | cons x t ih =>
    cases t with
    | nil =>
      right
      exact ⟨x, by simp, by simpa [joinSep] using hc⟩
    | cons y t2 =>
      simp only [joinSep] at hc
      rcases List.mem_append.mp hc with hc | hc
      · rcases List.mem_append.mp hc with hc | hc
        · exact Or.inr ⟨x, by simp, hc⟩
        · exact Or.inl (by simpa using hc)
      · rcases ih hc with h | ⟨f, hf, hcf⟩
        · exact Or.inl h
        · exact Or.inr ⟨f, by simp [hf], hcf⟩

theorem joinSpace_ends_ok (fs : List (List Char))
    (hfs : ∀ f ∈ fs, f ≠ [] ∧ ∀ c ∈ f, isUniSpace c = false) :
    trimSpace (joinSep [Char.ofNat 32] fs) = joinSep [Char.ofNat 32] fs := by
  cases hfs0 : fs with
  | nil => simp [joinSep, trimSpace, trimLeft, trimRight]
  | cons x t =>
    subst hfs0
    have hx := hfs x (by simp)
    -- head of the join is the head of `x`, a non-space
    obtain ⟨r, hr⟩ := joinSep_starts [Char.ofNat 32] x t
    -- last of the join is the last of the last field, a non-space
    have hlast : ∀ (t2 : List (List Char)) (x2 : List Char),
        (∀ f ∈ x2 :: t2, f ≠ [] ∧ ∀ c ∈ f, isUniSpace c = false) →
        ∃ c r2, (joinSep [Char.ofNat 32] (x2 :: t2)).reverse = c :: r2 ∧
          isUniSpace c = false := by
      intro t2
      induction t2 with
      | nil =>
        intro x2 hx2
        have h1 := hx2 x2 (by simp)
        cases hxx : x2.reverse with
        | nil =>
          exact absurd (by simpa using hxx) h1.1
        | cons c r2 =>
          refine ⟨c, r2, by simpa [joinSep] using hxx, ?_⟩
          have : c ∈ x2.reverse := by simp [hxx]
          exact h1.2 c (List.mem_reverse.mp this)
      | cons z t3 ih =>
        intro x2 hx2
        obtain ⟨c, r2, hrev, hcns⟩ := ih z (fun f hf => hx2 f (by
          rcases List.mem_cons.mp hf with hf | hf
          · simp [hf]
          · simp [hf]))
        refine ⟨c, r2 ++ (Char.ofNat 32 :: x2.reverse).reverse.reverse, ?_, hcns⟩
        have hstep : joinSep [Char.ofNat 32] (x2 :: z :: t3) =
            x2 ++ [Char.ofNat 32] ++ joinSep [Char.ofNat 32] (z :: t3) := by
          simp [joinSep]
        rw [hstep]
        simp only [List.reverse_append, hrev]
        simp
    obtain ⟨c, r2, hrev, hcns⟩ := hlast t x hfs
    have hleft : trimLeft (joinSep [Char.ofNat 32] (x :: t)) =
        joinSep [Char.ofNat 32] (x :: t) := by
      rw [hr]
      cases hxx : x with
      | nil => exact absurd hxx hx.1
      | cons d x2 =>
        have hd : isUniSpace d = false := hx.2 d (by simp [hxx])
        simp [trimLeft, List.dropWhile, hd]
    rw [trimSpace, hleft, trimRight, hrev]
    rw [List.dropWhile_cons_of_neg (by simp [hcns])]
    rw [← hrev, List.reverse_reverse]

/-! ## Scaling-icon membership lemmas -/

theorem flatten_parts (L : List (List Char)) (x : List Char) (hx : x ∈ L) :
    ∃ t1 t2, L.flatten = t1 ++ x ++ t2 := by
  induction L with
  | nil => simp at hx
  | cons y T ih =>
    rcases List.mem_cons.mp hx with hx | hx
    · subst hx
      exact ⟨[], T.flatten, by simp⟩
    · obtain ⟨t1, t2, ht⟩ := ih hx
      exact ⟨y ++ t1, t2, by simp [ht]⟩

theorem chunkFor_mem_aux (parts : List (List Char)) :
    ∀ (k i : Nat) (p : List Char), parts[i]? = some p → trimSpace p ≠ [] →
      chunkFor (trimSpace p) ∈ renderScalingChunksAux k parts := by
  induction parts with
  | nil => intro k i p h _; simp at h
  | cons q ps ih =>
    intro k i p h hne
    cases i with
    | zero =>
      simp only [List.getElem?_cons_zero, Option.some.injEq] at h
      subst h
      simp only [renderScalingChunksAux, chunkFor]
      rw [if_neg (by simpa using hne)]
      refine List.mem_append.mpr (Or.inl ?_)
      refine List.mem_append.mpr (Or.inr ?_)
      simp
    | succ j =>
      simp only [List.getElem?_cons_succ] at h
      simp only [renderScalingChunksAux]
      exact List.mem_append.mpr (Or.inr (ih (k + 1) j p h hne))

theorem plusSpan_mem_aux (parts : List (List Char)) :
    ∀ (k i : Nat) (p : List Char), parts[i]? = some p → 0 < k + i → trimSpace p ≠ [] →
      plusSpan ∈ renderScalingChunksAux k parts := by
  induction parts with
  | nil => intro k i p h _ _; simp at h
  | cons q ps ih =>
    intro k i p h hki hne
    cases i with
    | zero =>
      simp only [List.getElem?_cons_zero, Option.some.injEq] at h
      subst h
      simp only [renderScalingChunksAux]
      rw [if_neg (by simpa using hne)]
      refine List.mem_append.mpr (Or.inl (List.mem_append.mpr (Or.inl ?_)))
      rw [if_pos (by omega)]
      simp
    | succ j =>
      simp only [List.getElem?_cons_succ] at h
      simp only [renderScalingChunksAux]
      exact List.mem_append.mpr (Or.inr (ih (k + 1) j p h (by omega) hne))

theorem renderScalingIcons_contains (v : AbilityVariable) (x : List Char)
    (hx : x ∈ renderScalingChunksAux 0 (scalingParts v)) :
    containsSub x (renderScalingIcons v) = true := by
  have hparts : scalingParts v ≠ [] := by
    intro hcontra
    rw [hcontra] at hx
    simp [renderScalingChunksAux] at hx
  have hchunks : renderScalingChunksAux 0 (scalingParts v) ≠ [] := by
    intro hcontra
    rw [hcontra] at hx
    simp at hx
  obtain ⟨t1, t2, ht⟩ := flatten_parts _ x hx
  have : renderScalingIcons v = (renderScalingChunksAux 0 (scalingParts v)).flatten := by
    simp [renderScalingIcons, hparts, hchunks]
  rw [this, ht]
  exact containsSub_of_parts x t1 t2

/-! ## Association-list lookup lemmas -/

theorem lookupBy_map {α β : Type} (f : List Char → α → β) (l : List (List Char × α))
    (k : List Char) :
    lookupBy (l.map fun p => (p.1, f p.1 p.2)) k = (lookupBy l k).map (f k) := by
  induction l with
  | nil => simp [lookupBy]
  | cons p t ih =>
    obtain ⟨key, v⟩ := p
    by_cases hk : k = key
    · subst hk
      simp [lookupBy]
    · simp [lookupBy, hk, ih]

theorem lookupBy_mem {α : Type} (l : List (List Char × α)) (t : List Char) (v : α)
    (h : lookupBy l t = some v) : ∃ p ∈ l, p.1 = t ∧ p.2 = v := by
  induction l with
  | nil => simp [lookupBy] at h
  | cons p r ih =>
    obtain ⟨key, w⟩ := p
    simp only [lookupBy] at h
    split at h
    · rename_i hk
      have hv : w = v := by injection h
      exact ⟨(key, w), by simp, by simp [hk], hv⟩
    · obtain ⟨q, hq, hq1, hq2⟩ := ih h
      exact ⟨q, by simp [hq], hq1, hq2⟩

theorem lookupBy_none {α : Type} (l : List (List Char × α)) (t : List Char)
    (h : ∀ p ∈ l, ¬ p.1 = t) : lookupBy l t = none := by
  induction l with
  | nil => simp [lookupBy]
  | cons p r ih =>
    obtain ⟨key, w⟩ := p
    have hk : ¬ t = key := fun hc => h (key, w) (by simp) (by simp [hc])
    simp only [lookupBy, if_neg hk]
    exact ih (fun q hq => h q (by simp [hq]))

/-! ## Claims -/

/-- Claim C1, counterexample: for the raw champion record
`{"name":"Ahri","cost":4,"ability":{"description":"Deals @MagicDamage@ magic
damage (@Scaling@)","variables":{"MagicDamage":{"values":[100,150,200],
"scaling":"AP"}}}}`, the decoded values and scaling are as expected and the
formatter's output does contain `100/150/200`, but it contains no
`ability-scaling-group` wrapper and no `ability-icon-ap` icon class at all:
the `@Scaling@` token names no variable of the record (only `MagicDamage`
exists), so the parenthetical is left verbatim, refuting the claimed AP icon
span inside an `ability-scaling-group` wrapper. -/
theorem c1_counterexample :
    parseArray (JsonVal.arr [JsonVal.num (Dec.ofNat 100), JsonVal.num (Dec.ofNat 150),
        JsonVal.num (Dec.ofNat 200)]) = some ahriValueList
    ∧ scalingListDecode (JsonVal.str ("AP".toList)) = some ["AP".toList]
    ∧ containsSub ("100/150/200".toList)
        (formatAbilityDescription (adaptAbility ahriRawAbility)) = true
    ∧ containsSub ("ability-scaling-group".toList)
        (formatAbilityDescription (adaptAbility ahriRawAbility)) = false
    ∧ containsSub ("ability-icon-ap".toList)
        (formatAbilityDescription (adaptAbility ahriRawAbility)) = false := by
  refine ⟨by decide, by decide, by decide, by decide, by decide⟩

/-- Claim C1, amended: for the raw champion record of the end-to-end
scenario, after adaptation the formatter's output contains the rendered value
`100/150/200` (inside a plain `ability-token` span), while the
`(@Scaling@)` parenthetical is left verbatim — no AP icon and no
`ability-scaling-group` wrapper, since no variable named `Scaling` exists in
the record. -/
theorem c1_theorem :
    formatAbilityDescription (adaptAbility ahriRawAbility) = ahriOutput
    ∧ containsSub ("100/150/200".toList) ahriOutput = true
    ∧ containsSub ("(@Scaling@)".toList) ahriOutput = true := by
  refine ⟨by decide, by decide, by decide⟩

/-- Claim C2: for every description, a parenthesized span whose contents
include an `@…@` token marker is wrapped in an `ability-scaling-group` span
(with the parentheses in `ability-scaling-paren` spans, per `parenWrap`) if
and only if rendering its trimmed inner contents through the at-token and
brace-token rules changes the inner text; otherwise — including a
parenthetical with no `@…@` marker at all — the original parenthetical is
kept byte-for-byte and scanning continues after it. -/
theorem c2_theorem (vars : List (List Char × AbilityVariable)) (pre inner suf : List Char)
    (hpre : ∀ c ∈ pre, ¬ c = Char.ofNat 40) (hin : ∀ c ∈ inner, notParen c = true) :
    replaceParenthesizedTokens (pre ++ Char.ofNat 40 :: (inner ++ Char.ofNat 41 :: suf)) vars =
      pre ++
        (if hasAtMarker inner = true ∧
            renderParenInner vars (trimSpace inner) ≠ trimSpace inner then
          parenWrap (renderParenInner vars (trimSpace inner))
        else Char.ofNat 40 :: (inner ++ [Char.ofNat 41])) ++
        replaceParenthesizedTokens suf vars :=
  replaceParen_eq vars pre inner suf hpre hin

/-- Witness for C2 at concrete inputs: `x(@D@)y` with `D` resolvable wraps,
and `x(after a delay)y` with no marker is untouched. -/
theorem c2_witness :
    (replaceParenthesizedTokens
        ("x".toList ++ Char.ofNat 40 ::
          ((Char.ofNat 64 :: ("D".toList ++ [Char.ofNat 64])) ++ Char.ofNat 41 :: "y".toList))
        dVars =
      "x".toList ++
        (if hasAtMarker (Char.ofNat 64 :: ("D".toList ++ [Char.ofNat 64])) = true ∧
            renderParenInner dVars
                (trimSpace (Char.ofNat 64 :: ("D".toList ++ [Char.ofNat 64]))) ≠
              trimSpace (Char.ofNat 64 :: ("D".toList ++ [Char.ofNat 64])) then
          parenWrap (renderParenInner dVars
            (trimSpace (Char.ofNat 64 :: ("D".toList ++ [Char.ofNat 64]))))
        else Char.ofNat 40 :: ((Char.ofNat 64 :: ("D".toList ++ [Char.ofNat 64])) ++
          [Char.ofNat 41])) ++
        replaceParenthesizedTokens ("y".toList) dVars)
    ∧ (replaceParenthesizedTokens
        ("x".toList ++ Char.ofNat 40 :: ("after a delay".toList ++ Char.ofNat 41 :: "y".toList))
        dVars =
      "x".toList ++
        (if hasAtMarker ("after a delay".toList) = true ∧
            renderParenInner dVars (trimSpace ("after a delay".toList)) ≠
              trimSpace ("after a delay".toList) then
          parenWrap (renderParenInner dVars (trimSpace ("after a delay".toList)))
        else Char.ofNat 40 :: ("after a delay".toList ++ [Char.ofNat 41])) ++
        replaceParenthesizedTokens ("y".toList) dVars) :=
  ⟨c2_theorem dVars ("x".toList) (Char.ofNat 64 :: ("D".toList ++ [Char.ofNat 64]))
      ("y".toList) (by decide) (by decide),
   c2_theorem dVars ("x".toList) ("after a delay".toList) ("y".toList)
      (by decide) (by decide)⟩

/-- Claim C3: a token whose first segment names no variable is left verbatim,
delimiters included, for all three token shapes — `@Name@`, `@Name.field@`
and `{Token}` — with scanning resuming after it (nothing is removed and
nothing fails); and the example ability with description
`deals {Foo} damage` and no variable `Foo` keeps the literal `{Foo}` in the
formatter's output. -/
theorem c3_theorem :
    (∀ (vars : List (List Char × AbilityVariable)) (pre name suf : List Char),
      (∀ c ∈ pre, ¬ c = Char.ofNat 64) → name ≠ [] → (∀ c ∈ name, isSegChar c = true) →
      lookupBy vars name = none →
      replaceAbilityTokens (pre ++ Char.ofNat 64 :: (name ++ Char.ofNat 64 :: suf)) vars
          TokenRe.atRe =
        pre ++ Char.ofNat 64 ::
          (name ++ Char.ofNat 64 :: replaceAbilityTokens suf vars TokenRe.atRe))
    ∧ (∀ (vars : List (List Char × AbilityVariable)) (pre name field suf : List Char),
      (∀ c ∈ pre, ¬ c = Char.ofNat 64) → name ≠ [] → field ≠ [] →
      (∀ c ∈ name, isSegChar c = true) → (∀ c ∈ field, isSegChar c = true) →
      lookupBy vars name = none →
      replaceAbilityTokens
          (pre ++ Char.ofNat 64 :: (name ++ Char.ofNat 46 :: (field ++ Char.ofNat 64 :: suf)))
          vars TokenRe.atRe =
        pre ++ Char.ofNat 64 :: (name ++ Char.ofNat 46 ::
          (field ++ Char.ofNat 64 :: replaceAbilityTokens suf vars TokenRe.atRe)))
    ∧ (∀ (vars : List (List Char × AbilityVariable)) (pre tok suf : List Char),
      (∀ c ∈ pre, ¬ c = lbrace) → tok ≠ [] → (∀ c ∈ tok, isBraceChar c = true) →
      lookupBy vars (splitToken tok).1 = none →
      replaceAbilityTokens (pre ++ lbrace :: (tok ++ rbrace :: suf)) vars TokenRe.braceRe =
        pre ++ lbrace :: (tok ++ rbrace :: replaceAbilityTokens suf vars TokenRe.braceRe))
    ∧ containsSub (lbrace :: ("Foo".toList ++ [rbrace]))
        (formatAbilityDescription fooMissAbility) = true :=
  ⟨replaceAt_miss, replaceAt_miss_field, replaceBrace_miss, by decide⟩

/-- Witness for C3 at concrete inputs: `@Foo@` and `{Foo}` survive verbatim
against a variable map holding only `D`. -/
theorem c3_witness :
    (replaceAbilityTokens ("x ".toList ++ Char.ofNat 64 ::
        ("Foo".toList ++ Char.ofNat 64 :: " y".toList)) dVars TokenRe.atRe =
      "x ".toList ++ Char.ofNat 64 :: ("Foo".toList ++ Char.ofNat 64 ::
        replaceAbilityTokens (" y".toList) dVars TokenRe.atRe))
    ∧ (replaceAbilityTokens ("x ".toList ++ lbrace ::
        ("Foo".toList ++ rbrace :: " y".toList)) dVars TokenRe.braceRe =
      "x ".toList ++ lbrace :: ("Foo".toList ++ rbrace ::
        replaceAbilityTokens (" y".toList) dVars TokenRe.braceRe)) :=
  ⟨c3_theorem.1 dVars ("x ".toList) ("Foo".toList) (" y".toList)
      (by decide) (by decide) (by decide) (by decide),
   c3_theorem.2.2.1 dVars ("x ".toList) ("Foo".toList) (" y".toList)
      (by decide) (by decide) (by decide) (by decide)⟩

/-- Claim C4, counterexample: for the variable with `scalings = [""]` and
`displayValues = ["50"]`, field `scaling` selects the empty join and returns
it without falling through the chain, although the chain's first entry
(`displayValues`) is nonempty — so "when the selected field yields nothing,
resolution falls through the ordered chain" fails as stated. -/
theorem c4_counterexample :
    selectAbilityContent cexScalingVar ("scaling".toList) = []
    ∧ joinDisplayValues cexScalingVar.displayValues = "50".toList
    ∧ cexScalingVar.scalings ≠ [] := by
  refine ⟨by decide, by decide, by decide⟩

theorem selectFallback_ne_nil (v : AbilityVariable) (field : List Char) (h : field ≠ []) :
    selectFallback v field ≠ [] := by
  unfold selectFallback
  split_ifs <;> simp_all

/-- Claim C4, amended: field `values` or an absent field resolves through the
ordered chain displayValues → numeric values (shortest round-trip decimals,
slash-joined) → type → variable name → literal field name; field `type`
returns the type or falls through the same chain; any unknown field falls
through the chain directly; field `scaling`, however, returns the
`" + "`-join verbatim whenever the scalings list is nonempty (even when that
join is empty, as for `scalings = [""]`), falling through only when both
scaling fields are unset.  With that exception, a nonempty requested field
never selects empty content, and a substitution never puts empty text into
the output (an empty render keeps the literal token). -/
theorem c4_theorem (v : AbilityVariable) (field : List Char) :
    ((field = "values".toList ∨ field = []) →
      selectAbilityContent v field = selectFallback v field)
    ∧ (field = "scaling".toList →
      selectAbilityContent v field =
        (if v.scalings ≠ [] then joinSep (" + ".toList) v.scalings
         else if v.scaling ≠ [] then v.scaling
         else selectFallback v field))
    ∧ (field = "type".toList →
      selectAbilityContent v field =
        (if v.type ≠ [] then v.type else selectFallback v field))
    ∧ (¬ (field = "values".toList ∨ field = []) → ¬ field = "scaling".toList →
      ¬ field = "type".toList → selectAbilityContent v field = selectFallback v field)
    ∧ (field ≠ [] → ¬ field = "scaling".toList → selectAbilityContent v field ≠ [])
    ∧ (∀ (vars : List (List Char × AbilityVariable)) (matchText tok : List Char),
      matchText ≠ [] → substToken vars matchText tok ≠ []) := by
  refine ⟨?_, ?_, ?_, ?_, ?_, fun vars mt tok h => substToken_ne_nil vars mt tok h⟩
  · intro h
    simp only [selectAbilityContent, if_pos h]
    by_cases h1 : joinDisplayValues v.displayValues = []
    · by_cases h2 : joinAbilityValues v.values = []
      · simp [h1, h2]
      · simp [h1, h2, selectFallback]
    · simp [h1, selectFallback]
  · intro h
    have hnv : ¬ (field = "values".toList ∨ field = []) := by
      subst h; decide
    simp [selectAbilityContent, hnv, h]
  · intro h
    have hnv : ¬ (field = "values".toList ∨ field = []) := by
      subst h; decide
    have hns : ¬ field = "scaling".toList := by subst h; decide
    simp [selectAbilityContent, hnv, hns, h]
  · intro h1 h2 h3
    unfold selectAbilityContent
    rw [if_neg h1, if_neg h2, if_neg h3]
  · intro hne hns
    unfold selectAbilityContent
    by_cases hv : field = "values".toList ∨ field = []
    · rw [if_pos hv]
      by_cases h1 : joinDisplayValues v.displayValues = []
      · rw [if_neg (by simp [h1])]
        by_cases h2 : joinAbilityValues v.values = []
        · rw [if_neg (by simp [h2])]
          exact selectFallback_ne_nil v field hne
        · rw [if_pos h2]
          exact h2
      · rw [if_pos h1]
        exact h1
    · rw [if_neg hv, if_neg hns]
      by_cases ht : field = "type".toList
      · rw [if_pos ht]
        by_cases h4 : v.type = []
        · rw [if_neg (by simp [h4])]
          exact selectFallback_ne_nil v field hne
        · rw [if_pos h4]
          exact h4
      · rw [if_neg ht]
        exact selectFallback_ne_nil v field hne

/-- Witness for C4 at a concrete variable: an unknown field `damage` falls
through to the chain, and field `values` resolves through the chain. -/
theorem c4_witness :
    selectAbilityContent displayVar ("damage".toList) = selectFallback displayVar ("damage".toList)
    ∧ selectAbilityContent displayVar ("values".toList) =
        selectFallback displayVar ("values".toList)
    ∧ selectAbilityContent displayVar ("damage".toList) ≠ []
    ∧ substToken dVars ("m".toList) ("Foo".toList) ≠ [] :=
  ⟨(c4_theorem displayVar ("damage".toList)).2.2.2.1 (by decide) (by decide) (by decide),
   (c4_theorem displayVar ("values".toList)).1 (Or.inl rfl),
   (c4_theorem displayVar ("damage".toList)).2.2.2.2.1 (by decide) (by decide),
   (c4_theorem displayVar ("damage".toList)).2.2.2.2.2 dVars ("m".toList) ("Foo".toList)
     (by decide)⟩

/-- Claim C5: rendering with field `scaling` emits, for each nonempty part,
an icon block with the mapped class, an `aria-label` and a text child holding
the (trimmed, un-normalized) part when the normalized key is in the fixed
table, a plain `ability-token` span with the part text otherwise, and a
`+`-separator span before every part of positive index; and whenever the
scaling content is nonempty and some icon markup was produced,
`renderAbilityValue` returns exactly that markup. -/
theorem c5_theorem :
    (∀ (v : AbilityVariable) (i : Nat) (p : List Char),
      (scalingParts v)[i]? = some p → trimSpace p ≠ [] →
      (scalingIconClass (trimSpace p) ≠ [] →
        containsSub (iconBlock (scalingIconClass (trimSpace p)) (trimSpace p))
          (renderScalingIcons v) = true)
      ∧ (scalingIconClass (trimSpace p) = [] →
        containsSub (plainTokenSpan (trimSpace p)) (renderScalingIcons v) = true)
      ∧ (0 < i → containsSub plusSpan (renderScalingIcons v) = true))
    ∧ (∀ v : AbilityVariable, selectAbilityContent v ("scaling".toList) ≠ [] →
        renderScalingIcons v ≠ [] →
        renderAbilityValue v ("scaling".toList) = renderScalingIcons v) := by
  constructor
  · intro v i p hp hne
    have hchunk := chunkFor_mem_aux (scalingParts v) 0 i p hp hne
    refine ⟨?_, ?_, ?_⟩
    · intro hcls
      have : chunkFor (trimSpace p) = iconBlock (scalingIconClass (trimSpace p)) (trimSpace p) := by
        simp [chunkFor, hcls]
      exact renderScalingIcons_contains v _ (this ▸ hchunk)
    · intro hcls
      have : chunkFor (trimSpace p) = plainTokenSpan (trimSpace p) := by
        simp [chunkFor, hcls]
      exact renderScalingIcons_contains v _ (this ▸ hchunk)
    · intro hi
      exact renderScalingIcons_contains v _
        (plusSpan_mem_aux (scalingParts v) 0 i p hp (by omega) hne)
  · intro v h1 h2
    unfold renderAbilityValue
    rw [if_neg h1, if_pos ⟨rfl, h2⟩]

/-- Witness for C5 at a concrete variable with `scalings = ["AP","XYZ"]`:
the AP icon block, the plain XYZ span and the plus separator all occur. -/
theorem c5_witness :
    containsSub (iconBlock (scalingIconClass ("AP".toList)) ("AP".toList))
        (renderScalingIcons apXyzVar) = true
    ∧ containsSub (plainTokenSpan ("XYZ".toList)) (renderScalingIcons apXyzVar) = true
    ∧ containsSub plusSpan (renderScalingIcons apXyzVar) = true :=
  ⟨(c5_theorem.1 apXyzVar 0 ("AP".toList) (by decide) (by decide)).1 (by decide),
   (c5_theorem.1 apXyzVar 1 ("XYZ".toList) (by decide) (by decide)).2.1 (by decide),
   (c5_theorem.1 apXyzVar 1 ("XYZ".toList) (by decide) (by decide)).2.2 (by decide)⟩

/-- Claim C6: with a non-empty mapping-form variable set the description is
used as-is (trimmed `description`, else trimmed `descriptionRaw`) and the
Description Normalizer's output never appears; with no mapping-form
variables and a nonblank description the normalizer runs on the raw
description, its output is preferred when non-empty, and the verbatim
trimmed description is the fallback otherwise. -/
theorem c6_theorem (a : SetAbility) :
    (a.rawVars.map ≠ [] → (adaptAbility a).description =
      (if trimSpace a.description = [] ∧ a.descriptionRaw ≠ []
       then trimSpace a.descriptionRaw else trimSpace a.description))
    ∧ (a.rawVars.map = [] → trimSpace a.description ≠ [] →
      (adaptAbility a).description =
        (if normalizeDescription a.description ≠ []
         then normalizeDescription a.description else trimSpace a.description)) := by
  constructor
  · intro h
    simp [adaptAbility, h]
  · intro h hdesc
    have hraw : ¬ (trimSpace a.description = [] ∧ a.descriptionRaw ≠ []) := by
      intro hc
      exact hdesc hc.1
    simp only [adaptAbility, h, if_pos rfl, if_neg hraw]
    by_cases hc : normalizeDescription a.description = []
    · simp [hc, hdesc]
    · simp [hc]

/-- Witness for C6 at both concrete branches: the Ahri record (mapping form,
description untouched) and a legacy record (normalizer converts the
`@Damage@` token). -/
theorem c6_witness :
    (adaptAbility ahriRawAbility).description =
      (if trimSpace ahriRawAbility.description = [] ∧ ahriRawAbility.descriptionRaw ≠ []
       then trimSpace ahriRawAbility.descriptionRaw
       else trimSpace ahriRawAbility.description)
    ∧ (adaptAbility legacyRawAbility).description =
      (if normalizeDescription legacyRawAbility.description ≠ []
       then normalizeDescription legacyRawAbility.description
       else trimSpace legacyRawAbility.description) :=
  ⟨(c6_theorem ahriRawAbility).1 (by decide),
   (c6_theorem legacyRawAbility).2 (by decide) (by decide)⟩

theorem normalized_shape (X : List Char) :
    (∀ c ∈ joinSep [Char.ofNat 32] (fields X), isUniSpace c = true → c = Char.ofNat 32)
    ∧ noTwoSpaces (joinSep [Char.ofNat 32] (fields X)) = true
    ∧ trimSpace (joinSep [Char.ofNat 32] (fields X)) = joinSep [Char.ofNat 32] (fields X) := by
  have hfs := fields_props X
  refine ⟨?_, joinSpace_noTwoSpaces _ hfs, joinSpace_ends_ok _ hfs⟩
  intro c hc hsp
  rcases joinSpace_mem _ c hc with h | ⟨f, hf, hcf⟩
  · exact h
  · have := (hfs f hf).2 c hcf
    rw [this] at hsp
    cases hsp

/-- Claim C7: the legacy-token conversion step rewrites every `@Name@` and
`@Name*100@` token (word-character names) into `{Name}` / `{Name*100}` with
the `*100` suffix kept verbatim; the final pipeline step leaves only plain
spaces as whitespace, never two adjacent, and trims both ends; and
`deals @Damage@ to enemies` normalizes to `deals {Damage} to enemies`. -/
theorem c7_theorem :
    (∀ pre name suf : List Char, (∀ c ∈ pre, ¬ c = Char.ofNat 64) → name ≠ [] →
      (∀ c ∈ name, isWordChar c = true) →
      convertLegacyTokens (pre ++ Char.ofNat 64 :: (name ++ Char.ofNat 64 :: suf)) =
        pre ++ lbrace :: (name ++ rbrace :: convertLegacyTokens suf))
    ∧ (∀ pre name suf : List Char, (∀ c ∈ pre, ¬ c = Char.ofNat 64) → name ≠ [] →
      (∀ c ∈ name, isWordChar c = true) →
      convertLegacyTokens (pre ++ Char.ofNat 64 :: (name ++ star100 ++ Char.ofNat 64 :: suf)) =
        pre ++ lbrace :: (name ++ star100 ++ rbrace :: convertLegacyTokens suf))
    ∧ (∀ s : List Char,
      (∀ c ∈ normalizeDescription s, isUniSpace c = true → c = Char.ofNat 32)
      ∧ noTwoSpaces (normalizeDescription s) = true
      ∧ trimSpace (normalizeDescription s) = normalizeDescription s)
    ∧ normalizeDescription ("deals @Damage@ to enemies".toList) =
        "deals ".toList ++ lbrace :: ("Damage".toList ++ rbrace :: " to enemies".toList) := by
  refine ⟨?_, ?_, ?_, by decide⟩
  · intro pre name suf hpre hn hw
    rw [convertLegacy_pass pre _ hpre, convertLegacy_step_plain name suf hn hw]
  · intro pre name suf hpre hn hw
    rw [convertLegacy_pass pre _ hpre, convertLegacy_step_star name suf hn hw]
  · intro s
    unfold normalizeDescription
    exact normalized_shape _

/-- Witness for C7 at concrete tokens: `x @Damage@ y` and `x @AS*100@ y`. -/
theorem c7_witness :
    convertLegacyTokens ("x ".toList ++ Char.ofNat 64 ::
        ("Damage".toList ++ Char.ofNat 64 :: " y".toList)) =
      "x ".toList ++ lbrace :: ("Damage".toList ++ rbrace :: convertLegacyTokens (" y".toList))
    ∧ convertLegacyTokens ("x ".toList ++ Char.ofNat 64 ::
        ("AS".toList ++ star100 ++ Char.ofNat 64 :: " y".toList)) =
      "x ".toList ++ lbrace ::
        ("AS".toList ++ star100 ++ rbrace :: convertLegacyTokens (" y".toList)) :=
  ⟨c7_theorem.1 ("x ".toList) ("Damage".toList) (" y".toList)
      (by decide) (by decide) (by decide),
   c7_theorem.2.1 ("x ".toList) ("AS".toList) (" y".toList)
      (by decide) (by decide) (by decide)⟩

/-- Claim C8: decoding a single JSON string never fails; its `Display()` is
the one-element list holding the trimmed string exactly as given, and its
`Numbers()` holds the single value obtained by trimming whitespace,
stripping a trailing `%` and float-parsing — or is empty when that parse
fails; in particular `"25%"` gives `Display() = ["25%"]` and
`Numbers() = [25]`. -/
theorem c8_theorem :
    (∀ s : List Char, ∃ vl, parseSingle (JsonVal.str s) = some vl
      ∧ vl.display2 = [trimSpace s]
      ∧ (∀ q, parseFloatString (trimSpace s) = some q → vl.numbers = [q])
      ∧ (parseFloatString (trimSpace s) = none → vl.numbers = []))
    ∧ parseFloatString ("25%".toList) = some { neg := false, mant := 25, scale := 0 } := by
  refine ⟨?_, by decide⟩
  intro s
  refine ⟨_, rfl, ?_, ?_, ?_⟩
  · simp [ValueList.display2, parseSingle]
  · intro q hq
    simp [ValueList.numbers, parseSingle, hq]
  · intro hq
    simp [ValueList.numbers, parseSingle, hq]

/-- Witness for C8 at the concrete input `"25%"`. -/
theorem c8_witness :
    vl25.display2 = ["25%".toList]
    ∧ vl25.numbers = [{ neg := false, mant := 25, scale := 0 }] := by
  obtain ⟨vl, hsome, hdisp, hnum, hnone⟩ := c8_theorem.1 ("25%".toList)
  have hconc : parseSingle (JsonVal.str ("25%".toList)) = some vl25 := by decide
  rw [hconc, Option.some.injEq] at hsome
  subst hsome
  refine ⟨by rw [hdisp]; decide, hnum _ (by decide)⟩

/-- Claim C9: the formatter is a pure function of the `Ability` value — it
reads no hidden mutable state (the source touches only immutable
package-level compiled patterns), so equal inputs give byte-identical
output. -/
theorem c9_theorem (a b : Ability) (h : a = b) :
    formatAbilityDescription a = formatAbilityDescription b := by
  rw [h]

/-- Witness for C9: two invocations on the same Ability value coincide. -/
theorem c9_witness :
    formatAbilityDescription fooMissAbility = formatAbilityDescription fooMissAbility :=
  c9_theorem fooMissAbility fooMissAbility rfl

/-- Claim C10: for a mapping-form entry with key `k`, the adapter keys the
output variable map by the untrimmed upstream key (with the record's `name`
set to the trimmed key), every resolvable token text is some untrimmed key,
and when `k` carries surrounding whitespace (and no other entry owns the
trimmed spelling) a lookup of the trimmed name misses, so an at-token
spelling the trimmed name is left as a literal miss by the formatter. -/
theorem c10_theorem (a : SetAbility) (k : List Char) (dv : DetailedVar)
    (hk : lookupBy a.rawVars.map k = some dv) :
    (lookupBy (adaptAbility a).vars k = some (adaptDetailedVar k dv)
      ∧ (adaptDetailedVar k dv).name = trimSpace k)
    ∧ (∀ t v, lookupBy (adaptAbility a).vars t = some v → ∃ p ∈ a.rawVars.map, p.1 = t)
    ∧ (trimSpace k ≠ k → (∀ p ∈ a.rawVars.map, ¬ p.1 = trimSpace k) →
      lookupBy (adaptAbility a).vars (trimSpace k) = none
      ∧ (∀ pre suf : List Char, (∀ c ∈ pre, ¬ c = Char.ofNat 64) → trimSpace k ≠ [] →
        (∀ c ∈ trimSpace k, isSegChar c = true) →
        replaceAbilityTokens
            (pre ++ Char.ofNat 64 :: (trimSpace k ++ Char.ofNat 64 :: suf))
            (adaptAbility a).vars TokenRe.atRe =
          pre ++ Char.ofNat 64 :: (trimSpace k ++ Char.ofNat 64 ::
            replaceAbilityTokens suf (adaptAbility a).vars TokenRe.atRe))) := by
  have hmapne : a.rawVars.map ≠ [] := by
    intro hc
    rw [hc] at hk
    simp [lookupBy] at hk
  have hvars : (adaptAbility a).vars =
      a.rawVars.map.map fun p => (p.1, adaptDetailedVar p.1 p.2) := by
    simp [adaptAbility, hmapne]
  refine ⟨⟨?_, rfl⟩, ?_, ?_⟩
  · rw [hvars, lookupBy_map adaptDetailedVar a.rawVars.map k, hk]
    rfl
  · intro t v hv
    rw [hvars, lookupBy_map adaptDetailedVar a.rawVars.map t] at hv
    cases hlk : lookupBy a.rawVars.map t with
    | none => rw [hlk] at hv; cases hv
    | some dv2 =>
      obtain ⟨p, hp, hp1, _⟩ := lookupBy_mem a.rawVars.map t dv2 hlk
      exact ⟨p, hp, hp1⟩
  · intro htr hnok
    have hnone : lookupBy (adaptAbility a).vars (trimSpace k) = none := by
      rw [hvars, lookupBy_map adaptDetailedVar a.rawVars.map (trimSpace k),
        lookupBy_none a.rawVars.map (trimSpace k) hnok]
      rfl
    refine ⟨hnone, ?_⟩
    intro pre suf hpre hne hseg
    exact replaceAt_miss (adaptAbility a).vars pre (trimSpace k) suf hpre hne hseg hnone

/-- Witness for C10 at the concrete key `" Damage"`: the adapted map is keyed
by the untrimmed key with trimmed `name`, the trimmed spelling misses, and
the token `@Damage@` stays literal. -/
theorem c10_witness :
    lookupBy (adaptAbility spacedRawAbility).vars (" Damage".toList) =
        some (adaptDetailedVar (" Damage".toList) spacedDetailedVar)
    ∧ lookupBy (adaptAbility spacedRawAbility).vars (trimSpace (" Damage".toList)) = none
    ∧ replaceAbilityTokens
        ("x ".toList ++ Char.ofNat 64 ::
          (trimSpace (" Damage".toList) ++ Char.ofNat 64 :: " y".toList))
        (adaptAbility spacedRawAbility).vars TokenRe.atRe =
      "x ".toList ++ Char.ofNat 64 :: (trimSpace (" Damage".toList) ++ Char.ofNat 64 ::
        replaceAbilityTokens (" y".toList) (adaptAbility spacedRawAbility).vars TokenRe.atRe) := by
  have h := c10_theorem spacedRawAbility (" Damage".toList) spacedDetailedVar (by decide)
  have h3 := h.2.2 (by decide) (by decide)
  exact ⟨h.1.1, h3.1, h3.2 ("x ".toList) (" y".toList) (by decide) (by decide) (by decide)⟩

end SFT
